import Mathlib

/-!
# Verification of the `monkey-rs` lexical scanner (`src/lexer.rs`)

The scanner is embedded shallowly: the input `String` is modelled as its
sequence of characters (`List Char`), the cursor fields `position` /
`read_position` count characters (as the source's `read_char` does), and
the two unbounded scanning loops (`skip_whitespace` and the
identifier/digit run readers) are given an explicit fuel parameter whose
default value is proved sufficient on every state satisfying the cursor
invariant `CursorInv`.

The embedding has two layers.  The byte-faithful layer (`read_char_bytes`
… `next_token_bytes`, `Lexer.tokens_bytes`) models the source exactly:
bounds checks compare the character-count cursor against the byte length
of the UTF-8 buffer (`utf8Len`, built from `charBytes`), lexeme slices
index that buffer at byte offsets (`byteSlice`), and every panic — a
failing `chars().nth(..).unwrap()`, an out-of-bounds or
non-character-boundary slice, and `read_int`'s
`parse::<i32>().unwrap()` (modelled by `parse_i32`) — is surfaced as
`none` / `Run.panic`.  The character-granularity layer (`read_char` …
`next_token`, `Lexer.tokens`) idealizes the byte/char mixing away; the
`…_ascii` agreement theorems prove the two layers coincide on single-byte
(ASCII) input, where the source's addressing is consistent, so
character-layer results transfer to the byte-faithful model exactly
there.  Off ASCII the layers diverge and the byte-faithful layer is the
authority.
-/

set_option maxHeartbeats 1000000
set_option maxRecDepth 10000

/-- Token kinds produced by the scanner (`enum Token` in lexer.rs). -/
inductive Token where
  | ILLEGAL
  | EOF
  | IDENT (s : String)
  | INT (n : Int)
  | ASSIGN | PLUS | MINUS | GT | LT | BANG | ASTERISK | SLASH
  | EQ | NEQ | GEQ | LEQ
  | LPAREN | RPAREN | LBRACE | RBRACE | COMMA | SEMICOLON
  | FUNCTION | LET | TRUE | FALSE | IF | ELSE | RETURN
  deriving DecidableEq, Repr

/-- Scanner state (`struct Lexer` in lexer.rs).  The owned input string is
modelled as its character sequence; `position` and `read_position` count
characters from the start, exactly as `chars().nth` does in the source. -/
structure Lexer where
  input : List Char
  position : Nat
  read_position : Nat
  ch : Char
  deriving DecidableEq, Repr

/-- `Lexer::read_char` at character granularity: load the character at
`read_position` (the null sentinel past the end of the input) and advance
both cursors.  This idealizes the source's byte-length bounds check
`read_position >= input.len()` and the `chars().nth(..).unwrap()` panic;
`read_char_bytes` below is the byte-faithful version and
`read_char_bytes_ascii` proves the two agree on ASCII input. -/
def read_char (l : Lexer) : Lexer :=
  { l with
    ch := if l.input.length ≤ l.read_position then '\x00'
          else l.input.getD l.read_position '\x00',
    position := l.read_position,
    read_position := l.read_position + 1 }

/-- `Lexer::peak_char` (sic) at character granularity: the character at
`read_position` without advancing, null sentinel past the end.  The
byte-faithful version is `peak_char_bytes` below (`peak_char_bytes_ascii`
proves agreement on ASCII input). -/
def peak_char (l : Lexer) : Char :=
  if l.input.length ≤ l.read_position then '\x00'
  else l.input.getD l.read_position '\x00'

/-- `Lexer::new`: all cursors at zero, then one priming `read_char`. -/
def Lexer.new (input : List Char) : Lexer :=
  read_char { input := input, position := 0, read_position := 0, ch := '\x00' }

/-- The whitespace class of `skip_whitespace`: space, tab, newline,
carriage return. -/
def isWsCh (c : Char) : Bool :=
  c = ' ' || c = '\t' || c = '\n' || c = '\r'

/-- The digit class `'0'..='9'`. -/
def isDigitCh (c : Char) : Bool :=
  '0' ≤ c && c ≤ '9'

/-- The identifier-character class `'a'..='z' | 'A'..='Z' | '_'` used both
to start an identifier and to continue one (`read_ident`); note the class
contains no digits. -/
def isIdentCh (c : Char) : Bool :=
  ('a' ≤ c && c ≤ 'z') || ('A' ≤ c && c ≤ 'Z') || c = '_'

/-- The `while let ' ' | '\t' | '\n' | '\r' = self.ch` loop of
`skip_whitespace`, with explicit fuel. -/
def skipWsFuel : Nat → Lexer → Lexer
  | 0, l => l
  | f + 1, l => if isWsCh l.ch then skipWsFuel f (read_char l) else l

/-- `Lexer::skip_whitespace`.  The fuel `input.length + 1` is proved
sufficient on every character-consistent state (`skipWsFuel_spec`). -/
def skip_whitespace (l : Lexer) : Lexer :=
  skipWsFuel (l.input.length + 1) l

/-- The shared shape of the two reading loops of `read_ident` and
`read_int`: `while <class> = self.peak_char() { self.read_char(); }`. -/
def readRunFuel (p : Char → Bool) : Nat → Lexer → Lexer
  | 0, l => l
  | f + 1, l => if p (peak_char l) then readRunFuel p f (read_char l) else l

/-- `Lexer::read_ident` at character granularity: run the loop, then
slice `input[start..=position]` as a character slice.  The byte-faithful
version, which takes the slice at byte offsets into the UTF-8 buffer and
surfaces every panic, is `read_ident_bytes` below
(`read_ident_bytes_ascii` proves agreement on ASCII input). -/
def read_ident (l : Lexer) : String × Lexer :=
  let l2 := readRunFuel isIdentCh (l.input.length + 1) l
  (String.mk ((l2.input.drop l.position).take (l2.position + 1 - l.position)), l2)

/-- Decimal value of a digit string, most significant digit first. -/
def digitsVal (s : List Char) : Nat :=
  s.foldl (fun a c => 10 * a + (c.toNat - 48)) 0

/-- Models `str::parse::<i32>()` on the lexemes `read_int` produces: a
nonempty all-digit string (no sign) parses exactly when its value fits
`i32`, i.e. is at most `2147483647`; `none` models the `Err` that
`.unwrap()` turns into a process abort. -/
def parse_i32 (s : String) : Option Int :=
  if s.data ≠ [] ∧ s.data.all isDigitCh = true ∧ digitsVal s.data ≤ 2147483647
  then some (Int.ofNat (digitsVal s.data))
  else none

/-- `Lexer::read_int` at character granularity: run the digit loop,
slice the lexeme, parse it; `none` in the first component is the parse
unwrap panic.  The byte-faithful version is `read_int_bytes` below
(`read_int_bytes_ascii` proves agreement on ASCII input). -/
def read_int (l : Lexer) : Option Int × Lexer :=
  let l2 := readRunFuel isDigitCh (l.input.length + 1) l
  (parse_i32 (String.mk ((l2.input.drop l.position).take (l2.position + 1 - l.position))), l2)

/-- `Lexer::double_token`: peek at the next character; if it equals
`second`, consume it and emit the doubled token, else emit the single. -/
def double_token (l : Lexer) (second : Char) (single double : Token) : Token × Lexer :=
  if peak_char l = second then (double, read_char l) else (single, l)

/-- The fixed keyword table of `next_token` (the `match ident.as_str()`
arms): lexeme to keyword kind, defaulting to `IDENT`. -/
def lookupIdent (s : String) : Token :=
  if s = "fn" then Token.FUNCTION
  else if s = "let" then Token.LET
  else if s = "true" then Token.TRUE
  else if s = "false" then Token.FALSE
  else if s = "if" then Token.IF
  else if s = "else" then Token.ELSE
  else if s = "return" then Token.RETURN
  else Token.IDENT s

/-- The dispatch `match self.ch` of `next_token`, including the final
`self.read_char()` each arm performs before the token is returned.  Arms
appear in source order; `none` propagates the `read_int` panic. -/
def dispatch (l : Lexer) : Option (Token × Lexer) :=
  if l.ch = '=' then
    some ((double_token l '=' Token.ASSIGN Token.EQ).1,
          read_char (double_token l '=' Token.ASSIGN Token.EQ).2)
  else if l.ch = '+' then some (Token.PLUS, read_char l)
  else if l.ch = '-' then some (Token.MINUS, read_char l)
  else if l.ch = '>' then
    some ((double_token l '=' Token.GT Token.GEQ).1,
          read_char (double_token l '=' Token.GT Token.GEQ).2)
  else if l.ch = '<' then
    some ((double_token l '=' Token.LT Token.LEQ).1,
          read_char (double_token l '=' Token.LT Token.LEQ).2)
  else if l.ch = '!' then
    some ((double_token l '=' Token.BANG Token.NEQ).1,
          read_char (double_token l '=' Token.BANG Token.NEQ).2)
  else if l.ch = '*' then some (Token.ASTERISK, read_char l)
  else if l.ch = '/' then some (Token.SLASH, read_char l)
  else if l.ch = '(' then some (Token.LPAREN, read_char l)
  else if l.ch = ')' then some (Token.RPAREN, read_char l)
  else if l.ch = '{' then some (Token.LBRACE, read_char l)
  else if l.ch = '}' then some (Token.RBRACE, read_char l)
  else if l.ch = ',' then some (Token.COMMA, read_char l)
  else if l.ch = ';' then some (Token.SEMICOLON, read_char l)
  else if isDigitCh l.ch then
    match (read_int l).1 with
    | some v => some (Token.INT v, read_char (read_int l).2)
    | none => none
  else if isIdentCh l.ch then
    some (lookupIdent (read_ident l).1, read_char (read_ident l).2)
  else if l.ch = '\x00' then some (Token.EOF, read_char l)
  else some (Token.ILLEGAL, read_char l)

/-- `Lexer::next_token`: skip whitespace, then dispatch on the current
character. -/
def next_token (l : Lexer) : Option (Token × Lexer) :=
  dispatch (skip_whitespace l)

/-- `impl Iterator for Lexer`: one pull of the iterator.  `EOF` maps to
the inner `none` ("no more items"); the state advances either way.  The
outer `none` models the `read_int` panic. -/
def iter_next (l : Lexer) : Option (Option Token × Lexer) :=
  match next_token l with
  | none => none
  | some (Token.EOF, l2) => some (none, l2)
  | some (t, l2) => some (some t, l2)

/-- Outcome of draining the iterator with bounded fuel: `done ts` means
end-of-input was produced after emitting `ts` (the externally visible
sequence, which excludes `EOF`); `panic` means `read_int` aborted;
`more l` means the fuel ran out in state `l`. -/
inductive Run where
  | done (ts : List Token)
  | panic
  | more (l : Lexer)
  deriving DecidableEq, Repr

/-- Prepend an emitted token to a drain outcome. -/
def Run.cons (t : Token) : Run → Run
  | done ts => done (t :: ts)
  | panic => panic
  | more l => more l

/-- Did the drain run out of fuel? -/
def Run.isMore : Run → Bool
  | more _ => true
  | _ => false

/-- Drain the iterator for at most `f` pulls. -/
def runFuel : Nat → Lexer → Run
  | 0, l => Run.more l
  | f + 1, l =>
    match next_token l with
    | none => Run.panic
    | some (Token.EOF, _) => Run.done []
    | some (t, l2) => Run.cons t (runFuel f l2)

/-- The externally visible token sequence of an input: drain a fresh
scanner; `input.length + 1` pulls are proved sufficient. -/
def Lexer.tokens (input : List Char) : Run :=
  runFuel (input.length + 1) (Lexer.new input)

/-- The unread-from-`position` remainder of the input; the character under
the cursor is its head. -/
def Lexer.suffix (l : Lexer) : List Char :=
  l.input.drop l.position

/-- Cursor consistency: the lookahead cursor is one past the current one,
and `ch` is the character at `position` (null sentinel out of range).
Established by any `read_char`, hence by `Lexer.new`, and preserved by
every scanner operation. -/
def CursorInv (l : Lexer) : Prop :=
  l.read_position = l.position + 1 ∧ l.ch = l.input.getD l.position '\x00'

instance (l : Lexer) : Decidable (CursorInv l) :=
  inferInstanceAs (Decidable (_ ∧ _))

/-- A character of the unrecognized class: not whitespace, not a digit,
not an identifier character, not one of the fourteen operator/delimiter
characters, and not the null sentinel — exactly the inputs reaching the
`_ => Token::ILLEGAL` arm. -/
def isIllegalCh (c : Char) : Bool :=
  !isWsCh c && !isDigitCh c && !isIdentCh c &&
  !(c == '=') && !(c == '+') && !(c == '-') && !(c == '>') && !(c == '<') &&
  !(c == '!') && !(c == '*') && !(c == '/') && !(c == '(') && !(c == ')') &&
  !(c == '{') && !(c == '}') && !(c == ',') && !(c == ';') && !(c == '\x00')

/-- ASCII-only input: every character is a single UTF-8 byte. -/
def AsciiInput (s : List Char) : Prop := ∀ c ∈ s, c.toNat < 128

/-- Input free of interior null characters (the scanner's end sentinel). -/
def NoNul (s : List Char) : Prop := ∀ c ∈ s, c ≠ '\x00'

instance (s : List Char) : Decidable (AsciiInput s) :=
  inferInstanceAs (Decidable (∀ c ∈ s, c.toNat < 128))

instance (s : List Char) : Decidable (NoNul s) :=
  inferInstanceAs (Decidable (∀ c ∈ s, c ≠ '\x00'))

/-! ## One-step description of a token read over the unread remainder -/

/-- What one `dispatch` does, described over the unread remainder of the
input (whitespace already skipped): the emitted token together with the
remainder left unread after the arm's final `read_char`, or `none` for the
integer-overflow panic.  Proved to agree with `dispatch` on every
character-consistent state in `dispatch_descr`. -/
def nextDescrCore : List Char → Option (Token × List Char)
  | [] => some (Token.EOF, [])
  | c :: r =>
    if c = '=' then
      if r.headD '\x00' = '=' then some (Token.EQ, r.tail) else some (Token.ASSIGN, r)
    else if c = '+' then some (Token.PLUS, r)
    else if c = '-' then some (Token.MINUS, r)
    else if c = '>' then
      if r.headD '\x00' = '=' then some (Token.GEQ, r.tail) else some (Token.GT, r)
    else if c = '<' then
      if r.headD '\x00' = '=' then some (Token.LEQ, r.tail) else some (Token.LT, r)
    else if c = '!' then
      if r.headD '\x00' = '=' then some (Token.NEQ, r.tail) else some (Token.BANG, r)
    else if c = '*' then some (Token.ASTERISK, r)
    else if c = '/' then some (Token.SLASH, r)
    else if c = '(' then some (Token.LPAREN, r)
    else if c = ')' then some (Token.RPAREN, r)
    else if c = '{' then some (Token.LBRACE, r)
    else if c = '}' then some (Token.RBRACE, r)
    else if c = ',' then some (Token.COMMA, r)
    else if c = ';' then some (Token.SEMICOLON, r)
    else if isDigitCh c then
      match parse_i32 (String.mk (c :: r.takeWhile isDigitCh)) with
      | some v => some (Token.INT v, r.dropWhile isDigitCh)
      | none => none
    else if isIdentCh c then
      some (lookupIdent (String.mk (c :: r.takeWhile isIdentCh)), r.dropWhile isIdentCh)
    else if c = '\x00' then some (Token.EOF, r)
    else some (Token.ILLEGAL, r)

/-- What one `next_token` does, described over the unread remainder. -/
def nextDescr (s : List Char) : Option (Token × List Char) :=
  nextDescrCore (s.dropWhile isWsCh)

/-- `ScansL s ts` : the input `s` splits into alternating whitespace runs
and complete token lexemes, each lexeme being consumed exactly by one
scanner step (`nextDescr`), emitting the tokens `ts` in order.  Trailing
whitespace (or an empty remainder) ends the decomposition. -/
inductive ScansL : List Char → List Token → Prop
  | nil (w : List Char) (hw : ∀ c ∈ w, isWsCh c = true) : ScansL w []
  | cons (w lx r : List Char) (t : Token) (ts : List Token)
      (hw : ∀ c ∈ w, isWsCh c = true)
      (hstep : nextDescr (lx ++ r) = some (t, r))
      (hne : t ≠ Token.EOF)
      (hrest : ScansL r ts) :
      ScansL (w ++ (lx ++ r)) (t :: ts)

/-- UTF-8 encoding of one character, as byte values. -/
def charBytes (c : Char) : List Nat :=
  if c.toNat < 128 then [c.toNat]
  else if c.toNat < 2048 then [192 + c.toNat / 64, 128 + c.toNat % 64]
  else if c.toNat < 65536 then
    [224 + c.toNat / 4096, 128 + c.toNat / 64 % 64, 128 + c.toNat % 64]
  else
    [240 + c.toNat / 262144, 128 + c.toNat / 4096 % 64, 128 + c.toNat / 64 % 64,
      128 + c.toNat % 64]

/-- The UTF-8 byte buffer of the input: what the Rust `String` actually
stores; `input.len()` is its length and `input[a..=b]` slices it. -/
def utf8Bytes (s : List Char) : List Nat :=
  (s.map charBytes).flatten

/-- The source's `self.input.len()`: the byte length of the input. -/
def utf8Len (s : List Char) : Nat := (utf8Bytes s).length

/-- `peak_char` with the source's actual addressing: the bounds check
compares the character-count cursor `read_position` against the byte
length `input.len()`, and the `chars().nth(..).unwrap()` panic is
surfaced as `none`. -/
def peak_char_bytes (l : Lexer) : Option Char :=
  if utf8Len l.input ≤ l.read_position then some '\x00'
  else l.input.get? l.read_position


/-! ## Byte-faithful model

The definitions above (`read_char`, `peak_char`, `read_ident`, `read_int`,
`skip_whitespace`, `next_token`, …) are the character-granularity
idealization of the source: they replace the byte-length bounds check
`self.read_position >= self.input.len()` with a character-count check,
collapse the `chars().nth(..).unwrap()` panic into the null sentinel, and
model the byte-offset slice `&input[start..=position]` at character
granularity.  The definitions below are the byte-faithful translation:
bounds checks compare against the byte length `utf8Len`, every
`nth().unwrap()` and slice panic is surfaced as `none`, and lexeme slices
index the UTF-8 byte buffer.  On ASCII input the two models agree
(`read_char_bytes_ascii` … `next_token_bytes_ascii`); on input containing
a multi-byte character they diverge, and the byte-faithful model is the
authority. -/

/-- `Lexer::read_char`, byte-faithful: the bounds check compares the
character-count cursor against the byte length `input.len()`, and a
failing `chars().nth(read_position).unwrap()` (reachable when the
character count is exhausted but the byte length is not) is a panic,
returned as `none`. -/
def read_char_bytes (l : Lexer) : Option Lexer :=
  match (if utf8Len l.input ≤ l.read_position then some '\x00'
         else l.input.get? l.read_position) with
  | none => none
  | some c =>
    some { l with
      ch := c,
      position := l.read_position,
      read_position := l.read_position + 1 }

/-- The `skip_whitespace` loop, byte-faithful: each `read_char` can
panic.  Fuel `utf8Len input + 1` is sufficient on every
character-consistent state. -/
def skipWsFuelB : Nat → Lexer → Option Lexer
  | 0, l => some l
  | f + 1, l =>
    if isWsCh l.ch then
      match read_char_bytes l with
      | none => none
      | some l2 => skipWsFuelB f l2
    else some l

/-- `Lexer::skip_whitespace`, byte-faithful. -/
def skip_whitespace_bytes (l : Lexer) : Option Lexer :=
  skipWsFuelB (utf8Len l.input + 1) l

/-- The shared reading loop of `read_ident` / `read_int`, byte-faithful:
`peak_char` (and the `read_char` inside the loop) can panic. -/
def readRunFuelB (p : Char → Bool) : Nat → Lexer → Option Lexer
  | 0, l => some l
  | f + 1, l =>
    match peak_char_bytes l with
    | none => none
    | some c =>
      if p c then
        match read_char_bytes l with
        | none => none
        | some l2 => readRunFuelB p f l2
      else some l

/-- The character index whose byte offset in the UTF-8 encoding of `s` is
exactly `off`: `none` when `off` is past the end or falls inside a
multi-byte character (not a character boundary). -/
def charIdxOfByte : List Char → Nat → Option Nat
  | _, 0 => some 0
  | [], _ + 1 => none
  | c :: t, off + 1 =>
    if off + 1 < (charBytes c).length then none
    else (charIdxOfByte t (off + 1 - (charBytes c).length)).map (· + 1)

/-- The Rust byte slice `&s[a..b1]` (half-open) of the UTF-8 buffer,
decoded back to characters: `none` models the slice panic when `a > b1`,
when `b1` exceeds the byte length, or when either offset is not a
character boundary. -/
def byteSlice (s : List Char) (a b1 : Nat) : Option (List Char) :=
  match charIdxOfByte s a, charIdxOfByte s b1 with
  | some i, some j => if a ≤ b1 then some ((s.drop i).take (j - i)) else none
  | _, _ => none

/-- `Lexer::read_ident`, byte-faithful: the loop's peeks/reads can panic,
and the lexeme is `&input[start..=position]` sliced at BYTE offsets
`start`/`position` that the source obtained by counting characters. -/
def read_ident_bytes (l : Lexer) : Option (String × Lexer) :=
  match readRunFuelB isIdentCh (utf8Len l.input + 1) l with
  | none => none
  | some l2 =>
    match byteSlice l2.input l.position (l2.position + 1) with
    | none => none
    | some cs => some (String.mk cs, l2)

/-- `Lexer::read_int`, byte-faithful: loop panics, slice panics and the
`parse::<i32>().unwrap()` overflow panic all collapse to `none`. -/
def read_int_bytes (l : Lexer) : Option (Int × Lexer) :=
  match readRunFuelB isDigitCh (utf8Len l.input + 1) l with
  | none => none
  | some l2 =>
    match byteSlice l2.input l.position (l2.position + 1) with
    | none => none
    | some cs =>
      match parse_i32 (String.mk cs) with
      | none => none
      | some v => some (v, l2)

/-- `Lexer::double_token`, byte-faithful: the peek can panic. -/
def double_token_bytes (l : Lexer) (second : Char) (single double : Token) :
    Option (Token × Lexer) :=
  match peak_char_bytes l with
  | none => none
  | some c =>
    if c = second then
      match read_char_bytes l with
      | none => none
      | some l2 => some (double, l2)
    else some (single, l)

/-- The trailing `self.read_char()` of `next_token` (lexer.rs:97) before
the token is returned, byte-faithful: if it panics, the token is never
returned. -/
def finish_bytes (t : Token) (l : Lexer) : Option (Token × Lexer) :=
  match read_char_bytes l with
  | none => none
  | some l2 => some (t, l2)

/-- The dispatch `match self.ch` of `next_token`, byte-faithful; arms in
source order, each ending in the trailing `read_char`. -/
def dispatch_bytes (l : Lexer) : Option (Token × Lexer) :=
  if l.ch = '=' then
    match double_token_bytes l '=' Token.ASSIGN Token.EQ with
    | none => none
    | some p => finish_bytes p.1 p.2
  else if l.ch = '+' then finish_bytes Token.PLUS l
  else if l.ch = '-' then finish_bytes Token.MINUS l
  else if l.ch = '>' then
    match double_token_bytes l '=' Token.GT Token.GEQ with
    | none => none
    | some p => finish_bytes p.1 p.2
  else if l.ch = '<' then
    match double_token_bytes l '=' Token.LT Token.LEQ with
    | none => none
    | some p => finish_bytes p.1 p.2
  else if l.ch = '!' then
    match double_token_bytes l '=' Token.BANG Token.NEQ with
    | none => none
    | some p => finish_bytes p.1 p.2
  else if l.ch = '*' then finish_bytes Token.ASTERISK l
  else if l.ch = '/' then finish_bytes Token.SLASH l
  else if l.ch = '(' then finish_bytes Token.LPAREN l
  else if l.ch = ')' then finish_bytes Token.RPAREN l
  else if l.ch = '{' then finish_bytes Token.LBRACE l
  else if l.ch = '}' then finish_bytes Token.RBRACE l
  else if l.ch = ',' then finish_bytes Token.COMMA l
  else if l.ch = ';' then finish_bytes Token.SEMICOLON l
  else if isDigitCh l.ch then
    match read_int_bytes l with
    | none => none
    | some p => finish_bytes (Token.INT p.1) p.2
  else if isIdentCh l.ch then
    match read_ident_bytes l with
    | none => none
    | some p => finish_bytes (lookupIdent p.1) p.2
  else if l.ch = '\x00' then finish_bytes Token.EOF l
  else finish_bytes Token.ILLEGAL l

/-- `Lexer::next_token`, byte-faithful: `none` is a process abort (any
`unwrap` or slice panic). -/
def next_token_bytes (l : Lexer) : Option (Token × Lexer) :=
  match skip_whitespace_bytes l with
  | none => none
  | some l1 => dispatch_bytes l1

/-- Drain the iterator for at most `f` pulls, byte-faithful. -/
def runFuelB : Nat → Lexer → Run
  | 0, l => Run.more l
  | f + 1, l =>
    match next_token_bytes l with
    | none => Run.panic
    | some (Token.EOF, _) => Run.done []
    | some (t, l2) => Run.cons t (runFuelB f l2)

/-- The externally visible token sequence of an input under the
byte-faithful model (`Run.panic` when the program aborts mid-scan). -/
def Lexer.tokens_bytes (input : List Char) : Run :=
  runFuelB (input.length + 1) (Lexer.new input)

/-! ## Basic cursor lemmas -/

theorem read_char_input (l : Lexer) : (read_char l).input = l.input := rfl

theorem read_char_position (l : Lexer) : (read_char l).position = l.read_position := rfl

theorem read_char_rp (l : Lexer) : (read_char l).read_position = l.read_position + 1 := rfl

theorem cursorInv_read_char (l : Lexer) : CursorInv (read_char l) := by
  refine ⟨rfl, ?_⟩
  show (if l.input.length ≤ l.read_position then '\x00'
        else l.input.getD l.read_position '\x00') = l.input.getD l.read_position '\x00'
  split
  · exact (List.getD_eq_default _ _ (by assumption)).symm
  · rfl

theorem cursorInv_new (input : List Char) : CursorInv (Lexer.new input) :=
  cursorInv_read_char _

theorem new_input (input : List Char) : (Lexer.new input).input = input := rfl

theorem new_suffix (input : List Char) : (Lexer.new input).suffix = input := rfl

theorem suffix_read_char (l : Lexer) (h : CursorInv l) :
    (read_char l).suffix = l.suffix.tail := by
  show l.input.drop l.read_position = (l.input.drop l.position).tail
  rw [List.tail_drop, h.1]

theorem ch_eq_headD (l : Lexer) (h : CursorInv l) : l.ch = l.suffix.headD '\x00' := by
  rw [h.2, List.getD_eq_getElem?_getD, Lexer.suffix, List.headD_eq_head?_getD,
    List.head?_drop]

theorem peak_char_eq_getD (l : Lexer) :
    peak_char l = l.input.getD l.read_position '\x00' := by
  unfold peak_char
  split
  · exact (List.getD_eq_default _ _ (by assumption)).symm
  · rfl

theorem peak_eq_tail_headD (l : Lexer) (h : CursorInv l) :
    peak_char l = l.suffix.tail.headD '\x00' := by
  rw [peak_char_eq_getD, h.1, List.getD_eq_getElem?_getD, Lexer.suffix, List.tail_drop,
    List.headD_eq_head?_getD, List.head?_drop]

theorem suffix_len_le (l : Lexer) : l.suffix.length ≤ l.input.length := by
  unfold Lexer.suffix
  rw [List.length_drop]
  omega

/-! ## Character-class facts -/

theorem ne_of_pred {p : Char → Bool} {c : Char} (h : p c = true) (d : Char)
    (hd : p d = false) : c ≠ d := by
  rintro rfl
  rw [h] at hd
  cases hd

theorem wsCh_cases {c : Char} (h : isWsCh c = true) :
    c = ' ' ∨ c = '\t' ∨ c = '\n' ∨ c = '\r' := by
  have h2 : ((c = ' ' ∨ c = '\t') ∨ c = '\n') ∨ c = '\r' := by simpa [isWsCh] using h
  tauto

theorem identCh_not_ws {c : Char} (h : isIdentCh c = true) : isWsCh c = false := by
  cases hw : isWsCh c
  · rfl
  · rcases wsCh_cases hw with rfl | rfl | rfl | rfl <;> exact absurd h (by decide)

theorem digitCh_not_ws {c : Char} (h : isDigitCh c = true) : isWsCh c = false := by
  cases hw : isWsCh c
  · rfl
  · rcases wsCh_cases hw with rfl | rfl | rfl | rfl <;> exact absurd h (by decide)

theorem identCh_not_digit {c : Char} (h : isIdentCh c = true) : isDigitCh c = false := by
  cases hd : isDigitCh c
  · rfl
  · exfalso
    have h0 : '0' ≤ c ∧ c ≤ '9' := by simpa [isDigitCh] using hd
    have h1 : ('a' ≤ c ∧ c ≤ 'z') ∨ ('A' ≤ c ∧ c ≤ 'Z') ∨ c = '_' := by
      have h2 : ('a' ≤ c ∧ c ≤ 'z' ∨ 'A' ≤ c ∧ c ≤ 'Z') ∨ c = '_' := by
        simpa [isIdentCh] using h
      tauto
    rcases h1 with ⟨ha, _⟩ | ⟨ha, _⟩ | rfl
    · exact absurd (le_trans ha h0.2) (by decide)
    · exact absurd (le_trans ha h0.2) (by decide)
    · exact absurd h0.2 (by decide)

theorem illegalCh_spec {c : Char} (h : isIllegalCh c = true) :
    isWsCh c = false ∧ isDigitCh c = false ∧ isIdentCh c = false ∧
    c ≠ '=' ∧ c ≠ '+' ∧ c ≠ '-' ∧ c ≠ '>' ∧ c ≠ '<' ∧ c ≠ '!' ∧ c ≠ '*' ∧ c ≠ '/' ∧
    c ≠ '(' ∧ c ≠ ')' ∧ c ≠ '{' ∧ c ≠ '}' ∧ c ≠ ',' ∧ c ≠ ';' ∧ c ≠ '\x00' := by
  simp only [isIllegalCh, Bool.and_eq_true, Bool.not_eq_true'] at h
  obtain ⟨⟨⟨⟨⟨⟨⟨⟨⟨⟨⟨⟨⟨⟨⟨⟨⟨hw, hd⟩, hi⟩, h1⟩, h2⟩, h3⟩, h4⟩, h5⟩, h6⟩, h7⟩, h8⟩,
    h9⟩, h10⟩, h11⟩, h12⟩, h13⟩, h14⟩, h15⟩ := h
  refine ⟨hw, hd, hi, ?_, ?_, ?_, ?_, ?_, ?_, ?_, ?_, ?_, ?_, ?_, ?_, ?_, ?_, ?_⟩ <;>
    simp_all [beq_eq_false_iff_ne]

/-! ## takeWhile / dropWhile helpers -/

theorem take_takeWhile_len (p : Char → Bool) :
    ∀ l : List Char, l.take (l.takeWhile p).length = l.takeWhile p := by
  intro l
  induction l with
  | nil => rfl
  | cons a t ih =>
    rw [List.takeWhile_cons]
    by_cases hp : p a = true
    · rw [if_pos hp]
      simpa [List.take_succ_cons] using ih
    · rw [if_neg hp]
      rfl

theorem drop_takeWhile_len (p : Char → Bool) :
    ∀ l : List Char, l.drop (l.takeWhile p).length = l.dropWhile p := by
  intro l
  induction l with
  | nil => rfl
  | cons a t ih =>
    rw [List.takeWhile_cons, List.dropWhile_cons]
    by_cases hp : p a = true
    · rw [if_pos hp, if_pos hp]
      simpa using ih
    · rw [if_neg hp, if_neg hp]
      rfl

theorem dropWhile_ws_append {w : List Char} (hw : ∀ c ∈ w, isWsCh c = true)
    (x : List Char) : (w ++ x).dropWhile isWsCh = x.dropWhile isWsCh := by
  induction w with
  | nil => rfl
  | cons a t ih =>
    rw [List.cons_append, List.dropWhile_cons, if_pos (hw a (by simp))]
    exact ih fun c hc => hw c (by simp [hc])

theorem dropWhile_ws_nil {w : List Char} (hw : ∀ c ∈ w, isWsCh c = true) :
    w.dropWhile isWsCh = [] := by
  induction w with
  | nil => rfl
  | cons a t ih =>
    rw [List.dropWhile_cons, if_pos (hw a (by simp))]
    exact ih fun c hc => hw c (by simp [hc])

/-! ## `skip_whitespace` characterization -/

theorem skipWsFuel_spec :
    ∀ (f : Nat) (l : Lexer), CursorInv l → (l.suffix.takeWhile isWsCh).length < f →
    CursorInv (skipWsFuel f l) ∧ (skipWsFuel f l).input = l.input ∧
      (skipWsFuel f l).suffix = l.suffix.dropWhile isWsCh := by
  intro f
  induction f with
  | zero => intro l _ h; omega
  | succ f ih =>
    intro l hInv hlen
    by_cases hw : isWsCh l.ch = true
    · have hch := ch_eq_headD l hInv
      rcases hsfx : l.suffix with _ | ⟨c, t⟩
      · rw [hsfx] at hch
        simp at hch
        rw [hch] at hw
        exact absurd hw (by decide)
      · rw [hsfx] at hch
        simp at hch
        have hcw : isWsCh c = true := by rw [← hch]; exact hw
        have hstep : skipWsFuel (f + 1) l = skipWsFuel f (read_char l) := by
          simp [skipWsFuel, hw]
        have hsf2 : (read_char l).suffix = t := by
          rw [suffix_read_char l hInv, hsfx]
          rfl
        have hmeas : ((read_char l).suffix.takeWhile isWsCh).length < f := by
          rw [hsf2]
          rw [hsfx, List.takeWhile_cons, if_pos hcw] at hlen
          simp at hlen
          omega
        obtain ⟨hI, hin, hsout⟩ := ih (read_char l) (cursorInv_read_char l) hmeas
        rw [hstep]
        refine ⟨hI, by rw [hin, read_char_input], ?_⟩
        rw [hsout, hsf2]
        rw [List.dropWhile_cons, if_pos hcw]
    · have hw2 : isWsCh l.ch = false := by simpa using hw
      have hstep : skipWsFuel (f + 1) l = l := by simp [skipWsFuel, hw2]
      rw [hstep]
      refine ⟨hInv, rfl, ?_⟩
      rcases hsfx : l.suffix with _ | ⟨c, t⟩
      · simp
      · have hch := ch_eq_headD l hInv
        rw [hsfx] at hch
        simp at hch
        have hcw : isWsCh c = false := by rw [← hch]; exact hw2
        rw [List.dropWhile_cons, if_neg (by simp [hcw])]

theorem skip_whitespace_spec (l : Lexer) (h : CursorInv l) :
    CursorInv (skip_whitespace l) ∧ (skip_whitespace l).input = l.input ∧
      (skip_whitespace l).suffix = l.suffix.dropWhile isWsCh := by
  apply skipWsFuel_spec _ _ h
  have h1 : (l.suffix.takeWhile isWsCh).length ≤ l.suffix.length :=
    (List.takeWhile_sublist _).length_le
  have h2 := suffix_len_le l
  omega

theorem skip_ws_id {l : Lexer} (h : isWsCh l.ch = false) : skip_whitespace l = l := by
  unfold skip_whitespace
  simp [skipWsFuel, h]

/-! ## Reading-loop characterization (`read_ident` / `read_int`) -/

theorem readRunFuel_spec (p : Char → Bool) (hp0 : p '\x00' = false) :
    ∀ (f : Nat) (l : Lexer), CursorInv l → (l.suffix.tail.takeWhile p).length < f →
    CursorInv (readRunFuel p f l) ∧ (readRunFuel p f l).input = l.input ∧
      (readRunFuel p f l).position = l.position + (l.suffix.tail.takeWhile p).length := by
  intro f
  induction f with
  | zero => intro l _ h; omega
  | succ f ih =>
    intro l hInv hlen
    have hpk := peak_eq_tail_headD l hInv
    by_cases hq : p (peak_char l) = true
    · rcases htl : l.suffix.tail with _ | ⟨c, t2⟩
      · rw [htl] at hpk
        simp at hpk
        rw [hpk, hp0] at hq
        cases hq
      · rw [htl] at hpk
        simp at hpk
        have hpc : p c = true := by rw [← hpk]; exact hq
        have hstep : readRunFuel p (f + 1) l = readRunFuel p f (read_char l) := by
          simp [readRunFuel, hq]
        have hsf2 : (read_char l).suffix = c :: t2 := by rw [suffix_read_char l hInv, htl]
        have htl2 : (read_char l).suffix.tail = t2 := by
          rw [hsf2]
          rfl
        have hmeas : ((read_char l).suffix.tail.takeWhile p).length < f := by
          rw [htl2]
          rw [htl, List.takeWhile_cons, if_pos hpc] at hlen
          simp at hlen
          omega
        obtain ⟨hI, hin, hpos⟩ := ih (read_char l) (cursorInv_read_char l) hmeas
        rw [hstep]
        refine ⟨hI, by rw [hin, read_char_input], ?_⟩
        rw [hpos, htl2, read_char_position, hInv.1, List.takeWhile_cons, if_pos hpc]
        simp
        omega
    · have hq2 : p (peak_char l) = false := by simpa using hq
      have hstep : readRunFuel p (f + 1) l = l := by simp [readRunFuel, hq2]
      rw [hstep]
      refine ⟨hInv, rfl, ?_⟩
      rcases htl : l.suffix.tail with _ | ⟨c, t2⟩
      · simp
      · rw [htl] at hpk
        simp at hpk
        have hpc : p c = false := by rw [← hpk]; exact hq2
        rw [List.takeWhile_cons, if_neg (by simp [hpc])]
        simp

theorem readRun_slice (p : Char → Bool) (hp0 : p '\x00' = false) (l : Lexer)
    (h : CursorInv l) (hc : p l.ch = true) :
    ((readRunFuel p (l.input.length + 1) l).input.drop l.position).take
        ((readRunFuel p (l.input.length + 1) l).position + 1 - l.position)
      = l.suffix.takeWhile p ∧
    CursorInv (readRunFuel p (l.input.length + 1) l) ∧
    (readRunFuel p (l.input.length + 1) l).input = l.input ∧
    (readRunFuel p (l.input.length + 1) l).position
      = l.position + (l.suffix.tail.takeWhile p).length := by
  have hfuel : (l.suffix.tail.takeWhile p).length < l.input.length + 1 := by
    have h1 : (l.suffix.tail.takeWhile p).length ≤ l.suffix.tail.length :=
      (List.takeWhile_sublist _).length_le
    have h2 : l.suffix.tail.length ≤ l.suffix.length := (List.tail_sublist _).length_le
    have h3 := suffix_len_le l
    omega
  obtain ⟨hI, hin, hpos⟩ := readRunFuel_spec p hp0 (l.input.length + 1) l h hfuel
  refine ⟨?_, hI, hin, hpos⟩
  rw [hin, hpos]
  have harith : l.position + (l.suffix.tail.takeWhile p).length + 1 - l.position
      = (l.suffix.tail.takeWhile p).length + 1 := by omega
  rw [harith]
  show l.suffix.take ((l.suffix.tail.takeWhile p).length + 1) = l.suffix.takeWhile p
  have hch := ch_eq_headD l h
  rcases hsfx : l.suffix with _ | ⟨c, t⟩
  · rw [hsfx] at hch
    simp at hch
    rw [hch, hp0] at hc
    cases hc
  · rw [hsfx] at hch
    simp at hch
    have hpc : p c = true := by rw [← hch]; exact hc
    show (c :: t).take ((t.takeWhile p).length + 1) = (c :: t).takeWhile p
    rw [List.take_succ_cons, List.takeWhile_cons, if_pos hpc, take_takeWhile_len]

theorem read_ident_spec (l : Lexer) (h : CursorInv l) (hc : isIdentCh l.ch = true) :
    (read_ident l).1 = String.mk (l.suffix.takeWhile isIdentCh) ∧
    CursorInv (read_ident l).2 ∧ (read_ident l).2.input = l.input ∧
    (read_ident l).2.position = l.position + (l.suffix.tail.takeWhile isIdentCh).length := by
  obtain ⟨h1, h2, h3, h4⟩ := readRun_slice isIdentCh (by decide) l h hc
  exact ⟨congrArg String.mk h1, h2, h3, h4⟩

theorem read_int_spec (l : Lexer) (h : CursorInv l) (hc : isDigitCh l.ch = true) :
    (read_int l).1 = parse_i32 (String.mk (l.suffix.takeWhile isDigitCh)) ∧
    CursorInv (read_int l).2 ∧ (read_int l).2.input = l.input ∧
    (read_int l).2.position = l.position + (l.suffix.tail.takeWhile isDigitCh).length := by
  obtain ⟨h1, h2, h3, h4⟩ := readRun_slice isDigitCh (by decide) l h hc
  exact ⟨congrArg (fun s => parse_i32 (String.mk s)) h1, h2, h3, h4⟩

/-! ## Dispatch arm lemmas -/

theorem dispatch_tail (l : Lexer)
    (h1 : l.ch ≠ '=') (h2 : l.ch ≠ '+') (h3 : l.ch ≠ '-') (h4 : l.ch ≠ '>')
    (h5 : l.ch ≠ '<') (h6 : l.ch ≠ '!') (h7 : l.ch ≠ '*') (h8 : l.ch ≠ '/')
    (h9 : l.ch ≠ '(') (h10 : l.ch ≠ ')') (h11 : l.ch ≠ '{') (h12 : l.ch ≠ '}')
    (h13 : l.ch ≠ ',') (h14 : l.ch ≠ ';') :
    dispatch l =
      if isDigitCh l.ch then
        match (read_int l).1 with
        | some v => some (Token.INT v, read_char (read_int l).2)
        | none => none
      else if isIdentCh l.ch then
        some (lookupIdent (read_ident l).1, read_char (read_ident l).2)
      else if l.ch = '\x00' then some (Token.EOF, read_char l)
      else some (Token.ILLEGAL, read_char l) := by
  simp only [dispatch, if_neg h1, if_neg h2, if_neg h3, if_neg h4, if_neg h5, if_neg h6,
    if_neg h7, if_neg h8, if_neg h9, if_neg h10, if_neg h11, if_neg h12, if_neg h13,
    if_neg h14]

theorem dispatch_digit (l : Lexer) (hd : isDigitCh l.ch = true) :
    dispatch l =
      match (read_int l).1 with
      | some v => some (Token.INT v, read_char (read_int l).2)
      | none => none := by
  rw [dispatch_tail l (ne_of_pred hd '=' (by decide)) (ne_of_pred hd '+' (by decide))
    (ne_of_pred hd '-' (by decide)) (ne_of_pred hd '>' (by decide))
    (ne_of_pred hd '<' (by decide)) (ne_of_pred hd '!' (by decide))
    (ne_of_pred hd '*' (by decide)) (ne_of_pred hd '/' (by decide))
    (ne_of_pred hd '(' (by decide)) (ne_of_pred hd ')' (by decide))
    (ne_of_pred hd '{' (by decide)) (ne_of_pred hd '}' (by decide))
    (ne_of_pred hd ',' (by decide)) (ne_of_pred hd ';' (by decide)), if_pos hd]

theorem dispatch_ident (l : Lexer) (hi : isIdentCh l.ch = true) :
    dispatch l = some (lookupIdent (read_ident l).1, read_char (read_ident l).2) := by
  rw [dispatch_tail l (ne_of_pred hi '=' (by decide)) (ne_of_pred hi '+' (by decide))
    (ne_of_pred hi '-' (by decide)) (ne_of_pred hi '>' (by decide))
    (ne_of_pred hi '<' (by decide)) (ne_of_pred hi '!' (by decide))
    (ne_of_pred hi '*' (by decide)) (ne_of_pred hi '/' (by decide))
    (ne_of_pred hi '(' (by decide)) (ne_of_pred hi ')' (by decide))
    (ne_of_pred hi '{' (by decide)) (ne_of_pred hi '}' (by decide))
    (ne_of_pred hi ',' (by decide)) (ne_of_pred hi ';' (by decide)),
    if_neg (by simp [identCh_not_digit hi]), if_pos hi]

theorem dispatch_eof (l : Lexer) (hch : l.ch = '\x00') :
    dispatch l = some (Token.EOF, read_char l) := by
  rw [dispatch_tail l (by rw [hch]; decide) (by rw [hch]; decide) (by rw [hch]; decide)
    (by rw [hch]; decide) (by rw [hch]; decide) (by rw [hch]; decide) (by rw [hch]; decide)
    (by rw [hch]; decide) (by rw [hch]; decide) (by rw [hch]; decide) (by rw [hch]; decide)
    (by rw [hch]; decide) (by rw [hch]; decide) (by rw [hch]; decide), hch]
  rfl

theorem dispatch_illegal (l : Lexer) (hIll : isIllegalCh l.ch = true) :
    dispatch l = some (Token.ILLEGAL, read_char l) := by
  obtain ⟨hw, hd, hi, c1, c2, c3, c4, c5, c6, c7, c8, c9, c10, c11, c12, c13, c14, c15⟩ :=
    illegalCh_spec hIll
  rw [dispatch_tail l c1 c2 c3 c4 c5 c6 c7 c8 c9 c10 c11 c12 c13 c14,
    if_neg (by simp [hd]), if_neg (by simp [hi]), if_neg c15]

theorem dispatch_double (l : Lexer) (second : Char) (single double : Token)
    (harm : dispatch l = some ((double_token l second single double).1,
      read_char (double_token l second single double).2)) :
    (peak_char l = second →
      dispatch l = some (double, read_char (read_char l))) ∧
    (peak_char l ≠ second →
      dispatch l = some (single, read_char l)) := by
  constructor
  · intro hp
    rw [harm]
    unfold double_token
    rw [if_pos hp]
  · intro hp
    rw [harm]
    unfold double_token
    rw [if_neg hp]

theorem dispatch_single (l : Lexer) (c : Char) (tok : Token)
    (hct : (c, tok) ∈ [('+', Token.PLUS), ('-', Token.MINUS), ('*', Token.ASTERISK),
      ('/', Token.SLASH), ('(', Token.LPAREN), (')', Token.RPAREN), ('{', Token.LBRACE),
      ('}', Token.RBRACE), (',', Token.COMMA), (';', Token.SEMICOLON)])
    (hch : l.ch = c) : dispatch l = some (tok, read_char l) := by
  fin_cases hct <;> simp [dispatch, hch]

theorem dispatch_compound (l : Lexer) (c : Char) (ts td : Token)
    (hct : (c, (ts, td)) ∈ [('=', (Token.ASSIGN, Token.EQ)), ('>', (Token.GT, Token.GEQ)),
      ('<', (Token.LT, Token.LEQ)), ('!', (Token.BANG, Token.NEQ))])
    (hch : l.ch = c) :
    dispatch l = some ((double_token l '=' ts td).1,
      read_char (double_token l '=' ts td).2) := by
  fin_cases hct <;> simp [dispatch, hch]

theorem nextDescrCore_tail (c : Char) (r : List Char)
    (h1 : c ≠ '=') (h2 : c ≠ '+') (h3 : c ≠ '-') (h4 : c ≠ '>')
    (h5 : c ≠ '<') (h6 : c ≠ '!') (h7 : c ≠ '*') (h8 : c ≠ '/')
    (h9 : c ≠ '(') (h10 : c ≠ ')') (h11 : c ≠ '{') (h12 : c ≠ '}')
    (h13 : c ≠ ',') (h14 : c ≠ ';') :
    nextDescrCore (c :: r) =
      if isDigitCh c then
        match parse_i32 (String.mk (c :: r.takeWhile isDigitCh)) with
        | some v => some (Token.INT v, r.dropWhile isDigitCh)
        | none => none
      else if isIdentCh c then
        some (lookupIdent (String.mk (c :: r.takeWhile isIdentCh)), r.dropWhile isIdentCh)
      else if c = '\x00' then some (Token.EOF, r)
      else some (Token.ILLEGAL, r) := by
  simp only [nextDescrCore, if_neg h1, if_neg h2, if_neg h3, if_neg h4, if_neg h5,
    if_neg h6, if_neg h7, if_neg h8, if_neg h9, if_neg h10, if_neg h11, if_neg h12,
    if_neg h13, if_neg h14]

theorem dropWhile_head_false (p : Char → Bool) :
    ∀ (xs : List Char) (c : Char) (t : List Char), xs.dropWhile p = c :: t → p c = false := by
  intro xs
  induction xs with
  | nil => intro c t h; cases h
  | cons a as ih =>
    intro c t h
    rw [List.dropWhile_cons] at h
    by_cases hp : p a = true
    · rw [if_pos hp] at h
      exact ih _ _ h
    · rw [if_neg hp] at h
      cases h
      simpa using hp

theorem suffix_drop (l : Lexer) (k : Nat) :
    l.input.drop (l.position + k) = l.suffix.drop k := by
  unfold Lexer.suffix
  rw [List.drop_drop]

theorem master_helper (l : Lexer) (s0 : List Char) (tok : Token) (lf : Lexer)
    (hdisp : dispatch l = some (tok, lf)) (hI : CursorInv lf) (hin : lf.input = l.input)
    (hdescr : nextDescrCore s0 = some (tok, lf.suffix)) :
    (dispatch l).map (fun p => (p.1, p.2.suffix)) = nextDescrCore s0 ∧
    ∀ t l2, dispatch l = some (t, l2) → CursorInv l2 ∧ l2.input = l.input := by
  constructor
  · rw [hdisp, hdescr]
    rfl
  · intro t l2 hd2
    rw [hdisp] at hd2
    simp only [Option.some.injEq, Prod.mk.injEq] at hd2
    rw [← hd2.2]
    exact ⟨hI, hin⟩

theorem char_classify (c : Char) :
    isWsCh c = true ∨
    (c = '=' ∨ c = '>' ∨ c = '<' ∨ c = '!') ∨
    c ∈ (['+', '-', '*', '/', '(', ')', '{', '}', ',', ';'] : List Char) ∨
    isDigitCh c = true ∨ isIdentCh c = true ∨ c = '\x00' ∨ isIllegalCh c = true := by
  by_cases hw : isWsCh c = true
  · exact Or.inl hw
  by_cases hq : c = '=' ∨ c = '>' ∨ c = '<' ∨ c = '!'
  · exact Or.inr (Or.inl hq)
  by_cases hm : c ∈ (['+', '-', '*', '/', '(', ')', '{', '}', ',', ';'] : List Char)
  · exact Or.inr (Or.inr (Or.inl hm))
  by_cases hd : isDigitCh c = true
  · exact Or.inr (Or.inr (Or.inr (Or.inl hd)))
  by_cases hi : isIdentCh c = true
  · exact Or.inr (Or.inr (Or.inr (Or.inr (Or.inl hi))))
  by_cases h0 : c = '\x00'
  · exact Or.inr (Or.inr (Or.inr (Or.inr (Or.inr (Or.inl h0)))))
  refine Or.inr (Or.inr (Or.inr (Or.inr (Or.inr (Or.inr ?_)))))
  push_neg at hq
  obtain ⟨q1, q2, q3, q4⟩ := hq
  simp only [List.mem_cons, List.not_mem_nil, or_false, not_or] at hm
  obtain ⟨m1, m2, m3, m4, m5, m6, m7, m8, m9, m10⟩ := hm
  have hw2 : isWsCh c = false := by simpa using hw
  have hd2 : isDigitCh c = false := by simpa using hd
  have hi2 : isIdentCh c = false := by simpa using hi
  simp [isIllegalCh, hw2, hd2, hi2, q1, q2, q3, q4, m1, m2, m3, m4, m5, m6, m7, m8, m9,
    m10, h0]

theorem master_single (l : Lexer) (h : CursorInv l) (c : Char) (r : List Char)
    (hsfx : l.suffix = c :: r) (tok : Token)
    (hdisp : dispatch l = some (tok, read_char l))
    (hdescr : nextDescrCore (c :: r) = some (tok, r)) :
    (dispatch l).map (fun p => (p.1, p.2.suffix)) = nextDescrCore (c :: r) ∧
    ∀ t l2, dispatch l = some (t, l2) → CursorInv l2 ∧ l2.input = l.input := by
  have hr : (read_char l).suffix = r := by
    rw [suffix_read_char l h, hsfx]
    rfl
  refine master_helper l (c :: r) tok (read_char l) hdisp (cursorInv_read_char l) rfl ?_
  rw [hr, hdescr]

theorem master_compound (l : Lexer) (h : CursorInv l) (c : Char) (r : List Char)
    (hsfx : l.suffix = c :: r) (hch0 : l.ch = c) (ts td : Token)
    (hct : (c, (ts, td)) ∈ [('=', (Token.ASSIGN, Token.EQ)), ('>', (Token.GT, Token.GEQ)),
      ('<', (Token.LT, Token.LEQ)), ('!', (Token.BANG, Token.NEQ))])
    (hdescr : nextDescrCore (c :: r) =
      if r.headD '\x00' = '=' then some (td, r.tail) else some (ts, r)) :
    (dispatch l).map (fun p => (p.1, p.2.suffix)) = nextDescrCore (c :: r) ∧
    ∀ t l2, dispatch l = some (t, l2) → CursorInv l2 ∧ l2.input = l.input := by
  have harm := dispatch_compound l c ts td hct hch0
  have hdd := dispatch_double l '=' ts td harm
  have hr : (read_char l).suffix = r := by
    rw [suffix_read_char l h, hsfx]
    rfl
  have hpeak : peak_char l = r.headD '\x00' := by
    have hp := peak_eq_tail_headD l h
    rw [hsfx] at hp
    simpa using hp
  by_cases hpk : peak_char l = '='
  · have hrhd : r.headD '\x00' = '=' := by rw [← hpeak]; exact hpk
    refine master_helper l (c :: r) td (read_char (read_char l)) (hdd.1 hpk)
      (cursorInv_read_char _) rfl ?_
    have hs2 : (read_char (read_char l)).suffix = r.tail := by
      rw [suffix_read_char _ (cursorInv_read_char l), hr]
    rw [hs2, hdescr, if_pos hrhd]
  · have hrhd : ¬ r.headD '\x00' = '=' := by rw [← hpeak]; exact hpk
    refine master_helper l (c :: r) ts (read_char l) (hdd.2 hpk)
      (cursorInv_read_char _) rfl ?_
    rw [hr, hdescr, if_neg hrhd]

theorem master_digit (l : Lexer) (h : CursorInv l) (c : Char) (r : List Char)
    (hsfx : l.suffix = c :: r) (hch0 : l.ch = c) (hd : isDigitCh c = true) :
    (dispatch l).map (fun p => (p.1, p.2.suffix)) = nextDescrCore (c :: r) ∧
    ∀ t l2, dispatch l = some (t, l2) → CursorInv l2 ∧ l2.input = l.input := by
  have hdc : isDigitCh l.ch = true := by rw [hch0]; exact hd
  obtain ⟨hlex, hI2, hin2, hpos2⟩ := read_int_spec l h hdc
  have harg : l.suffix.takeWhile isDigitCh = c :: r.takeWhile isDigitCh := by
    rw [hsfx, List.takeWhile_cons, if_pos hd]
  have htl : l.suffix.tail = r := by
    rw [hsfx]
    rfl
  rw [harg] at hlex
  rw [htl] at hpos2
  have hdisp0 := dispatch_digit l hdc
  have hdescr0 := nextDescrCore_tail c r (ne_of_pred hd '=' (by decide))
    (ne_of_pred hd '+' (by decide)) (ne_of_pred hd '-' (by decide))
    (ne_of_pred hd '>' (by decide)) (ne_of_pred hd '<' (by decide))
    (ne_of_pred hd '!' (by decide)) (ne_of_pred hd '*' (by decide))
    (ne_of_pred hd '/' (by decide)) (ne_of_pred hd '(' (by decide))
    (ne_of_pred hd ')' (by decide)) (ne_of_pred hd '{' (by decide))
    (ne_of_pred hd '}' (by decide)) (ne_of_pred hd ',' (by decide))
    (ne_of_pred hd ';' (by decide))
  rcases hp : parse_i32 (String.mk (c :: r.takeWhile isDigitCh)) with _ | v
  · have hdisp : dispatch l = none := by rw [hdisp0, hlex, hp]
    constructor
    · rw [hdisp, hdescr0, if_pos hd, hp]
      rfl
    · intro t l2 hd2
      rw [hdisp] at hd2
      cases hd2
  · have hdisp : dispatch l = some (Token.INT v, read_char (read_int l).2) := by
      rw [hdisp0, hlex, hp]
    have hsf : (read_char (read_int l).2).suffix = r.dropWhile isDigitCh := by
      rw [suffix_read_char _ hI2]
      have hsub : (read_int l).2.suffix = (c :: r).drop ((r.takeWhile isDigitCh).length) := by
        unfold Lexer.suffix
        rw [hin2, hpos2, suffix_drop, hsfx]
      rw [hsub, List.tail_drop, List.drop_succ_cons, drop_takeWhile_len]
    refine master_helper l (c :: r) (Token.INT v) (read_char (read_int l).2) hdisp
      (cursorInv_read_char _) (by rw [read_char_input, hin2]) ?_
    rw [hsf, hdescr0, if_pos hd, hp]

theorem master_ident (l : Lexer) (h : CursorInv l) (c : Char) (r : List Char)
    (hsfx : l.suffix = c :: r) (hch0 : l.ch = c) (hi : isIdentCh c = true) :
    (dispatch l).map (fun p => (p.1, p.2.suffix)) = nextDescrCore (c :: r) ∧
    ∀ t l2, dispatch l = some (t, l2) → CursorInv l2 ∧ l2.input = l.input := by
  have hic : isIdentCh l.ch = true := by rw [hch0]; exact hi
  obtain ⟨hlex, hI2, hin2, hpos2⟩ := read_ident_spec l h hic
  have harg : l.suffix.takeWhile isIdentCh = c :: r.takeWhile isIdentCh := by
    rw [hsfx, List.takeWhile_cons, if_pos hi]
  have htl : l.suffix.tail = r := by
    rw [hsfx]
    rfl
  rw [harg] at hlex
  rw [htl] at hpos2
  have hdisp0 := dispatch_ident l hic
  have hdescr0 := nextDescrCore_tail c r (ne_of_pred hi '=' (by decide))
    (ne_of_pred hi '+' (by decide)) (ne_of_pred hi '-' (by decide))
    (ne_of_pred hi '>' (by decide)) (ne_of_pred hi '<' (by decide))
    (ne_of_pred hi '!' (by decide)) (ne_of_pred hi '*' (by decide))
    (ne_of_pred hi '/' (by decide)) (ne_of_pred hi '(' (by decide))
    (ne_of_pred hi ')' (by decide)) (ne_of_pred hi '{' (by decide))
    (ne_of_pred hi '}' (by decide)) (ne_of_pred hi ',' (by decide))
    (ne_of_pred hi ';' (by decide))
  have hdisp : dispatch l
      = some (lookupIdent (String.mk (c :: r.takeWhile isIdentCh)),
          read_char (read_ident l).2) := by
    rw [hdisp0, hlex]
  have hsf : (read_char (read_ident l).2).suffix = r.dropWhile isIdentCh := by
    rw [suffix_read_char _ hI2]
    have hsub : (read_ident l).2.suffix = (c :: r).drop ((r.takeWhile isIdentCh).length) := by
      unfold Lexer.suffix
      rw [hin2, hpos2, suffix_drop, hsfx]
    rw [hsub, List.tail_drop, List.drop_succ_cons, drop_takeWhile_len]
  refine master_helper l (c :: r)
    (lookupIdent (String.mk (c :: r.takeWhile isIdentCh))) (read_char (read_ident l).2)
    hdisp (cursorInv_read_char _) (by rw [read_char_input, hin2]) ?_
  rw [hsf, hdescr0, if_neg (by simp [identCh_not_digit hi]), if_pos hi]

theorem dispatch_descr (l : Lexer) (h : CursorInv l) (hnw : isWsCh l.ch = false) :
    (dispatch l).map (fun p => (p.1, p.2.suffix)) = nextDescrCore l.suffix ∧
    ∀ t l2, dispatch l = some (t, l2) → CursorInv l2 ∧ l2.input = l.input := by
  have hch0 := ch_eq_headD l h
  rcases hsfx : l.suffix with _ | ⟨c, r⟩
  · rw [hsfx] at hch0
    simp at hch0
    refine master_helper l [] Token.EOF (read_char l) (dispatch_eof l hch0)
      (cursorInv_read_char l) rfl ?_
    rw [suffix_read_char l h, hsfx]
    rfl
  · rw [hsfx] at hch0
    simp at hch0
    rcases char_classify c with hcw | hq | hmem | hd | hi | h0 | hill
    · rw [← hch0] at hcw
      rw [hcw] at hnw
      cases hnw
    · rcases hq with rfl | rfl | rfl | rfl
      · exact master_compound l h '=' r hsfx hch0 Token.ASSIGN Token.EQ (by simp)
          (by simp [nextDescrCore])
      · exact master_compound l h '>' r hsfx hch0 Token.GT Token.GEQ (by simp)
          (by simp [nextDescrCore])
      · exact master_compound l h '<' r hsfx hch0 Token.LT Token.LEQ (by simp)
          (by simp [nextDescrCore])
      · exact master_compound l h '!' r hsfx hch0 Token.BANG Token.NEQ (by simp)
          (by simp [nextDescrCore])
    · fin_cases hmem
      · exact master_single l h '+' r hsfx Token.PLUS
          (dispatch_single l '+' Token.PLUS (by simp) hch0) (by simp [nextDescrCore])
      · exact master_single l h '-' r hsfx Token.MINUS
          (dispatch_single l '-' Token.MINUS (by simp) hch0) (by simp [nextDescrCore])
      · exact master_single l h '*' r hsfx Token.ASTERISK
          (dispatch_single l '*' Token.ASTERISK (by simp) hch0) (by simp [nextDescrCore])
      · exact master_single l h '/' r hsfx Token.SLASH
          (dispatch_single l '/' Token.SLASH (by simp) hch0) (by simp [nextDescrCore])
      · exact master_single l h '(' r hsfx Token.LPAREN
          (dispatch_single l '(' Token.LPAREN (by simp) hch0) (by simp [nextDescrCore])
      · exact master_single l h ')' r hsfx Token.RPAREN
          (dispatch_single l ')' Token.RPAREN (by simp) hch0) (by simp [nextDescrCore])
      · exact master_single l h '{' r hsfx Token.LBRACE
          (dispatch_single l '{' Token.LBRACE (by simp) hch0) (by simp [nextDescrCore])
      · exact master_single l h '}' r hsfx Token.RBRACE
          (dispatch_single l '}' Token.RBRACE (by simp) hch0) (by simp [nextDescrCore])
      · exact master_single l h ',' r hsfx Token.COMMA
          (dispatch_single l ',' Token.COMMA (by simp) hch0) (by simp [nextDescrCore])
      · exact master_single l h ';' r hsfx Token.SEMICOLON
          (dispatch_single l ';' Token.SEMICOLON (by simp) hch0) (by simp [nextDescrCore])
    · exact master_digit l h c r hsfx hch0 hd
    · exact master_ident l h c r hsfx hch0 hi
    · subst h0
      exact master_single l h '\x00' r hsfx Token.EOF (dispatch_eof l hch0)
        (by simp [nextDescrCore, (by decide : isDigitCh '\x00' = false),
          (by decide : isIdentCh '\x00' = false)])
    · have hillc : isIllegalCh l.ch = true := by rw [hch0]; exact hill
      obtain ⟨hw, hd2, hi2, c1, c2, c3, c4, c5, c6, c7, c8, c9, c10, c11, c12, c13,
        c14, c15⟩ := illegalCh_spec hill
      refine master_single l h c r hsfx Token.ILLEGAL (dispatch_illegal l hillc) ?_
      rw [nextDescrCore_tail c r c1 c2 c3 c4 c5 c6 c7 c8 c9 c10 c11 c12 c13 c14,
        if_neg (by simp [hd2]), if_neg (by simp [hi2]), if_neg c15]

theorem next_token_descr (l : Lexer) (h : CursorInv l) :
    (next_token l).map (fun p => (p.1, p.2.suffix)) = nextDescr l.suffix ∧
    ∀ t l2, next_token l = some (t, l2) → CursorInv l2 ∧ l2.input = l.input := by
  obtain ⟨hI1, hin1, hsf1⟩ := skip_whitespace_spec l h
  have hnw : isWsCh (skip_whitespace l).ch = false := by
    have hch := ch_eq_headD (skip_whitespace l) hI1
    rw [hsf1] at hch
    rcases hdw : l.suffix.dropWhile isWsCh with _ | ⟨c, t⟩
    · rw [hdw] at hch
      simp at hch
      rw [hch]
      decide
    · rw [hdw] at hch
      simp at hch
      rw [hch]
      exact dropWhile_head_false isWsCh l.suffix c t hdw
  obtain ⟨hmap, hpres⟩ := dispatch_descr (skip_whitespace l) hI1 hnw
  constructor
  · show (dispatch (skip_whitespace l)).map (fun p => (p.1, p.2.suffix)) = nextDescr l.suffix
    rw [hmap, hsf1, nextDescr]
  · intro t l2 hnt
    have hp := hpres t l2 hnt
    exact ⟨hp.1, hp.2.trans hin1⟩

/-! ## Progress and drain lemmas -/

theorem wsCh_not_digit {c : Char} (h : isWsCh c = true) : isDigitCh c = false := by
  cases hd : isDigitCh c
  · rfl
  · rw [digitCh_not_ws hd] at h
    cases h

theorem wsCh_not_ident {c : Char} (h : isWsCh c = true) : isIdentCh c = false := by
  cases hi : isIdentCh c
  · rfl
  · rw [identCh_not_ws hi] at h
    cases h

theorem nextDescrCore_progress (s : List Char) (t : Token) (r : List Char)
    (h : nextDescrCore s = some (t, r)) (hne : t ≠ Token.EOF) : r.length < s.length := by
  cases s with
  | nil =>
    simp only [nextDescrCore, Option.some.injEq, Prod.mk.injEq] at h
    exact absurd h.1.symm hne
  | cons c r0 =>
    have hb1 : r0.tail.length ≤ r0.length := (List.tail_sublist r0).length_le
    have hb2 : (r0.dropWhile isDigitCh).length ≤ r0.length := (List.dropWhile_sublist _).length_le
    have hb3 : (r0.dropWhile isIdentCh).length ≤ r0.length := (List.dropWhile_sublist _).length_le
    rcases char_classify c with hcw | hq | hmem | hd | hi | h0 | hill
    · rw [nextDescrCore_tail c r0 (ne_of_pred hcw '=' (by decide))
        (ne_of_pred hcw '+' (by decide)) (ne_of_pred hcw '-' (by decide))
        (ne_of_pred hcw '>' (by decide)) (ne_of_pred hcw '<' (by decide))
        (ne_of_pred hcw '!' (by decide)) (ne_of_pred hcw '*' (by decide))
        (ne_of_pred hcw '/' (by decide)) (ne_of_pred hcw '(' (by decide))
        (ne_of_pred hcw ')' (by decide)) (ne_of_pred hcw '{' (by decide))
        (ne_of_pred hcw '}' (by decide)) (ne_of_pred hcw ',' (by decide))
        (ne_of_pred hcw ';' (by decide)), if_neg (by simp [wsCh_not_digit hcw]),
        if_neg (by simp [wsCh_not_ident hcw]),
        if_neg (ne_of_pred hcw '\x00' (by decide))] at h
      simp only [Option.some.injEq, Prod.mk.injEq] at h
      rw [← h.2]
      simp only [List.length_cons]
      omega
    · have hfin : ∀ td ts : Token,
          (if r0.headD '\x00' = '=' then some (td, r0.tail) else some (ts, r0))
            = some (t, r) → r.length < (c :: r0).length := by
        intro td ts hh
        split at hh <;>
          (simp only [Option.some.injEq, Prod.mk.injEq] at hh
           rw [← hh.2]
           simp only [List.length_cons]
           omega)
      rcases hq with rfl | rfl | rfl | rfl
      · exact hfin Token.EQ Token.ASSIGN ((by rfl :
          nextDescrCore ('=' :: r0) = if r0.headD '\x00' = '=' then
            some (Token.EQ, r0.tail) else some (Token.ASSIGN, r0)) ▸ h)
      · exact hfin Token.GEQ Token.GT ((by rfl :
          nextDescrCore ('>' :: r0) = if r0.headD '\x00' = '=' then
            some (Token.GEQ, r0.tail) else some (Token.GT, r0)) ▸ h)
      · exact hfin Token.LEQ Token.LT ((by rfl :
          nextDescrCore ('<' :: r0) = if r0.headD '\x00' = '=' then
            some (Token.LEQ, r0.tail) else some (Token.LT, r0)) ▸ h)
      · exact hfin Token.NEQ Token.BANG ((by rfl :
          nextDescrCore ('!' :: r0) = if r0.headD '\x00' = '=' then
            some (Token.NEQ, r0.tail) else some (Token.BANG, r0)) ▸ h)
    · fin_cases hmem <;>
        (simp [nextDescrCore] at h
         rw [← h.2]
         simp only [List.length_cons]
         omega)
    · rw [nextDescrCore_tail c r0 (ne_of_pred hd '=' (by decide))
        (ne_of_pred hd '+' (by decide)) (ne_of_pred hd '-' (by decide))
        (ne_of_pred hd '>' (by decide)) (ne_of_pred hd '<' (by decide))
        (ne_of_pred hd '!' (by decide)) (ne_of_pred hd '*' (by decide))
        (ne_of_pred hd '/' (by decide)) (ne_of_pred hd '(' (by decide))
        (ne_of_pred hd ')' (by decide)) (ne_of_pred hd '{' (by decide))
        (ne_of_pred hd '}' (by decide)) (ne_of_pred hd ',' (by decide))
        (ne_of_pred hd ';' (by decide)), if_pos hd] at h
      split at h
      · simp only [Option.some.injEq, Prod.mk.injEq] at h
        rw [← h.2]
        simp only [List.length_cons]
        omega
      · cases h
    · rw [nextDescrCore_tail c r0 (ne_of_pred hi '=' (by decide))
        (ne_of_pred hi '+' (by decide)) (ne_of_pred hi '-' (by decide))
        (ne_of_pred hi '>' (by decide)) (ne_of_pred hi '<' (by decide))
        (ne_of_pred hi '!' (by decide)) (ne_of_pred hi '*' (by decide))
        (ne_of_pred hi '/' (by decide)) (ne_of_pred hi '(' (by decide))
        (ne_of_pred hi ')' (by decide)) (ne_of_pred hi '{' (by decide))
        (ne_of_pred hi '}' (by decide)) (ne_of_pred hi ',' (by decide))
        (ne_of_pred hi ';' (by decide)), if_neg (by simp [identCh_not_digit hi]),
        if_pos hi] at h
      simp only [Option.some.injEq, Prod.mk.injEq] at h
      rw [← h.2]
      simp only [List.length_cons]
      omega
    · subst h0
      rw [(by rfl : nextDescrCore ('\x00' :: r0) = some (Token.EOF, r0))] at h
      simp only [Option.some.injEq, Prod.mk.injEq] at h
      exact absurd h.1.symm hne
    · obtain ⟨hw2, hd2, hi2, c1, c2, c3, c4, c5, c6, c7, c8, c9, c10, c11, c12, c13,
        c14, c15⟩ := illegalCh_spec hill
      rw [nextDescrCore_tail c r0 c1 c2 c3 c4 c5 c6 c7 c8 c9 c10 c11 c12 c13 c14,
        if_neg (by simp [hd2]), if_neg (by simp [hi2]), if_neg c15] at h
      simp only [Option.some.injEq, Prod.mk.injEq] at h
      rw [← h.2]
      simp only [List.length_cons]
      omega

theorem nextDescr_progress (s : List Char) (t : Token) (r : List Char)
    (h : nextDescr s = some (t, r)) (hne : t ≠ Token.EOF) : r.length < s.length := by
  have h1 := nextDescrCore_progress _ _ _ h hne
  have h2 : (s.dropWhile isWsCh).length ≤ s.length := (List.dropWhile_sublist _).length_le
  omega

theorem run_cons_done (t : Token) (x : Run) (ts : List Token)
    (h : Run.cons t x = Run.done ts) : ∃ ts0, x = Run.done ts0 ∧ ts = t :: ts0 := by
  cases x with
  | done ts0 =>
    refine ⟨ts0, rfl, ?_⟩
    simp only [Run.cons, Run.done.injEq] at h
    exact h.symm
  | panic => cases h
  | more _ => cases h

theorem run_isMore_cons (t : Token) (x : Run) : (Run.cons t x).isMore = x.isMore := by
  cases x <;> rfl

theorem runFuel_panic_step (f : Nat) (l : Lexer) (h : next_token l = none) :
    runFuel (f + 1) l = Run.panic := by
  simp [runFuel, h]

theorem runFuel_eof_step (f : Nat) (l : Lexer) (l2 : Lexer)
    (h : next_token l = some (Token.EOF, l2)) : runFuel (f + 1) l = Run.done [] := by
  simp [runFuel, h]

theorem runFuel_cons_step (f : Nat) (l : Lexer) (t : Token) (l2 : Lexer)
    (h : next_token l = some (t, l2)) (hne : t ≠ Token.EOF) :
    runFuel (f + 1) l = Run.cons t (runFuel f l2) := by
  cases t <;> first
    | exact absurd rfl hne
    | simp [runFuel, h]

theorem runFuel_complete :
    ∀ (n : Nat) (l : Lexer) (f : Nat), CursorInv l → l.suffix.length < n →
      l.suffix.length < f → (runFuel f l).isMore = false := by
  intro n
  induction n with
  | zero => intro l f _ h _; omega
  | succ n ih =>
    intro l f hInv hn hf
    obtain ⟨f2, rfl⟩ : ∃ f2, f = f2 + 1 := ⟨f - 1, by omega⟩
    obtain ⟨hmap, hpres⟩ := next_token_descr l hInv
    rcases hnt : next_token l with _ | ⟨t, l2⟩
    · rw [runFuel_panic_step f2 l hnt]
      rfl
    · by_cases he : t = Token.EOF
      · subst he
        rw [runFuel_eof_step f2 l l2 hnt]
        rfl
      · rw [runFuel_cons_step f2 l t l2 hnt he, run_isMore_cons]
        rw [hnt] at hmap
        have hstep : nextDescr l.suffix = some (t, l2.suffix) := by
          rw [← hmap]
          rfl
        have hprog := nextDescr_progress _ _ _ hstep he
        exact ih l2 f2 (hpres t l2 hnt).1 (by omega) (by omega)

theorem runFuel_agree :
    ∀ (n : Nat) (l : Lexer) (f g : Nat), CursorInv l → l.suffix.length < n →
      l.suffix.length < f → l.suffix.length < g → runFuel f l = runFuel g l := by
  intro n
  induction n with
  | zero => intro l f g _ h _ _; omega
  | succ n ih =>
    intro l f g hInv hn hf hg
    obtain ⟨f2, rfl⟩ : ∃ f2, f = f2 + 1 := ⟨f - 1, by omega⟩
    obtain ⟨g2, rfl⟩ : ∃ g2, g = g2 + 1 := ⟨g - 1, by omega⟩
    obtain ⟨hmap, hpres⟩ := next_token_descr l hInv
    rcases hnt : next_token l with _ | ⟨t, l2⟩
    · rw [runFuel_panic_step f2 l hnt, runFuel_panic_step g2 l hnt]
    · by_cases he : t = Token.EOF
      · subst he
        rw [runFuel_eof_step f2 l l2 hnt, runFuel_eof_step g2 l l2 hnt]
      · rw [runFuel_cons_step f2 l t l2 hnt he, runFuel_cons_step g2 l t l2 hnt he]
        rw [hnt] at hmap
        have hstep : nextDescr l.suffix = some (t, l2.suffix) := by
          rw [← hmap]
          rfl
        have hprog := nextDescr_progress _ _ _ hstep he
        rw [ih l2 f2 g2 (hpres t l2 hnt).1 (by omega) (by omega) (by omega)]

theorem runFuel_no_eof :
    ∀ (f : Nat) (l : Lexer) (ts : List Token), runFuel f l = Run.done ts →
      Token.EOF ∉ ts := by
  intro f
  induction f with
  | zero => intro l ts h; cases h
  | succ f ih =>
    intro l ts h
    rcases hnt : next_token l with _ | ⟨t, l2⟩
    · rw [runFuel_panic_step f l hnt] at h
      cases h
    · by_cases he : t = Token.EOF
      · subst he
        rw [runFuel_eof_step f l l2 hnt] at h
        simp only [Run.done.injEq] at h
        rw [← h]
        simp
      · rw [runFuel_cons_step f l t l2 hnt he] at h
        obtain ⟨ts0, hr, rfl⟩ := run_cons_done t _ ts h
        simp only [List.mem_cons, not_or]
        exact ⟨fun hc => he hc.symm, ih l2 ts0 hr⟩

theorem runFuel_len_bound :
    ∀ (f : Nat) (l : Lexer) (ts : List Token), runFuel f l = Run.done ts →
      ts.length ≤ f := by
  intro f
  induction f with
  | zero => intro l ts h; cases h
  | succ f ih =>
    intro l ts h
    rcases hnt : next_token l with _ | ⟨t, l2⟩
    · rw [runFuel_panic_step f l hnt] at h
      cases h
    · by_cases he : t = Token.EOF
      · subst he
        rw [runFuel_eof_step f l l2 hnt] at h
        simp only [Run.done.injEq] at h
        rw [← h]
        simp
      · rw [runFuel_cons_step f l t l2 hnt he] at h
        obtain ⟨ts0, hr, rfl⟩ := run_cons_done t _ ts h
        have := ih l2 ts0 hr
        simp only [List.length_cons]
        omega

/-! ## Whitespace/lexeme decompositions of an input -/

theorem nextDescr_ws_append {w : List Char} (hw : ∀ c ∈ w, isWsCh c = true)
    (x : List Char) : nextDescr (w ++ x) = nextDescr x := by
  unfold nextDescr
  rw [dropWhile_ws_append hw]

theorem nextDescr_ws_nil {w : List Char} (hw : ∀ c ∈ w, isWsCh c = true) :
    nextDescr w = some (Token.EOF, []) := by
  unfold nextDescr
  rw [dropWhile_ws_nil hw]
  rfl

theorem scansL_runFuel :
    ∀ {s : List Char} {ts : List Token}, ScansL s ts →
    ∀ (l : Lexer) (f : Nat), CursorInv l → l.suffix = s → s.length < f →
      runFuel f l = Run.done ts := by
  intro s ts hS
  induction hS with
  | nil w hw =>
    intro l f hInv hsfx hf
    obtain ⟨f2, rfl⟩ : ∃ f2, f = f2 + 1 := ⟨f - 1, by omega⟩
    obtain ⟨hmap, _⟩ := next_token_descr l hInv
    rw [hsfx, nextDescr_ws_nil hw] at hmap
    rcases hnt : next_token l with _ | ⟨t, l2⟩ <;> rw [hnt] at hmap
    · cases hmap
    · simp only [Option.map_some', Option.some.injEq, Prod.mk.injEq] at hmap
      rw [runFuel_eof_step f2 l l2 (by rw [hnt, hmap.1])]
  | cons w lx r t0 ts0 hw hstep hne hrest ih =>
    intro l f hInv hsfx hf
    obtain ⟨f2, rfl⟩ : ∃ f2, f = f2 + 1 := ⟨f - 1, by omega⟩
    obtain ⟨hmap, hpres⟩ := next_token_descr l hInv
    have hstepS : nextDescr l.suffix = some (t0, r) := by
      rw [hsfx, nextDescr_ws_append hw, hstep]
    rw [hstepS] at hmap
    rcases hnt : next_token l with _ | ⟨t2, l2⟩ <;> rw [hnt] at hmap
    · cases hmap
    · simp only [Option.map_some', Option.some.injEq, Prod.mk.injEq] at hmap
      obtain ⟨ht2, hsf2⟩ := hmap
      subst ht2
      rw [runFuel_cons_step f2 l t2 l2 hnt hne]
      have hprog : r.length < l.suffix.length := nextDescr_progress _ _ _ hstepS hne
      rw [hsfx] at hprog
      rw [ih l2 f2 (hpres t2 l2 hnt).1 hsf2 (by omega)]
      rfl

theorem tokens_of_scansL {s : List Char} {ts : List Token} (h : ScansL s ts) :
    Lexer.tokens s = Run.done ts :=
  scansL_runFuel h (Lexer.new s) (s.length + 1) (cursorInv_new s) (new_suffix s)
    (by omega)

theorem tokens_complete (input : List Char) : (Lexer.tokens input).isMore = false :=
  runFuel_complete (input.length + 1) (Lexer.new input) (input.length + 1)
    (cursorInv_new input) (by rw [new_suffix]; omega) (by rw [new_suffix]; omega)

/-! ## End-of-input analysis -/

theorem lookupIdent_ne_eof (s : String) : lookupIdent s ≠ Token.EOF := by
  unfold lookupIdent
  split_ifs <;> simp

theorem nextDescrCore_eof_no_nul :
    ∀ (s : List Char) (r : List Char), (∀ c ∈ s, c ≠ '\x00') →
      nextDescrCore s = some (Token.EOF, r) → s = [] ∧ r = [] := by
  intro s r hnn h
  cases s with
  | nil =>
    simp only [nextDescrCore, Option.some.injEq, Prod.mk.injEq] at h
    exact ⟨rfl, h.2.symm⟩
  | cons c r0 =>
    exfalso
    rcases char_classify c with hcw | hq | hmem | hd | hi | h0 | hill
    · rw [nextDescrCore_tail c r0 (ne_of_pred hcw '=' (by decide))
        (ne_of_pred hcw '+' (by decide)) (ne_of_pred hcw '-' (by decide))
        (ne_of_pred hcw '>' (by decide)) (ne_of_pred hcw '<' (by decide))
        (ne_of_pred hcw '!' (by decide)) (ne_of_pred hcw '*' (by decide))
        (ne_of_pred hcw '/' (by decide)) (ne_of_pred hcw '(' (by decide))
        (ne_of_pred hcw ')' (by decide)) (ne_of_pred hcw '{' (by decide))
        (ne_of_pred hcw '}' (by decide)) (ne_of_pred hcw ',' (by decide))
        (ne_of_pred hcw ';' (by decide)), if_neg (by simp [wsCh_not_digit hcw]),
        if_neg (by simp [wsCh_not_ident hcw]),
        if_neg (ne_of_pred hcw '\x00' (by decide))] at h
      simp only [Option.some.injEq, Prod.mk.injEq] at h
      cases h.1
    · have hfalse : ∀ td ts : Token, td ≠ Token.EOF → ts ≠ Token.EOF →
          (if r0.headD '\x00' = '=' then some (td, r0.tail) else some (ts, r0))
            = some (Token.EOF, r) → False := by
        intro td ts hd2 hs2 hh
        split at hh <;>
          (simp only [Option.some.injEq, Prod.mk.injEq] at hh
           first
             | exact hd2 hh.1
             | exact hs2 hh.1)
      rcases hq with rfl | rfl | rfl | rfl
      · exact hfalse Token.EQ Token.ASSIGN (by simp) (by simp) ((by rfl :
          nextDescrCore ('=' :: r0) = if r0.headD '\x00' = '=' then
            some (Token.EQ, r0.tail) else some (Token.ASSIGN, r0)) ▸ h)
      · exact hfalse Token.GEQ Token.GT (by simp) (by simp) ((by rfl :
          nextDescrCore ('>' :: r0) = if r0.headD '\x00' = '=' then
            some (Token.GEQ, r0.tail) else some (Token.GT, r0)) ▸ h)
      · exact hfalse Token.LEQ Token.LT (by simp) (by simp) ((by rfl :
          nextDescrCore ('<' :: r0) = if r0.headD '\x00' = '=' then
            some (Token.LEQ, r0.tail) else some (Token.LT, r0)) ▸ h)
      · exact hfalse Token.NEQ Token.BANG (by simp) (by simp) ((by rfl :
          nextDescrCore ('!' :: r0) = if r0.headD '\x00' = '=' then
            some (Token.NEQ, r0.tail) else some (Token.BANG, r0)) ▸ h)
    · fin_cases hmem <;> simp [nextDescrCore] at h
    · rw [nextDescrCore_tail c r0 (ne_of_pred hd '=' (by decide))
        (ne_of_pred hd '+' (by decide)) (ne_of_pred hd '-' (by decide))
        (ne_of_pred hd '>' (by decide)) (ne_of_pred hd '<' (by decide))
        (ne_of_pred hd '!' (by decide)) (ne_of_pred hd '*' (by decide))
        (ne_of_pred hd '/' (by decide)) (ne_of_pred hd '(' (by decide))
        (ne_of_pred hd ')' (by decide)) (ne_of_pred hd '{' (by decide))
        (ne_of_pred hd '}' (by decide)) (ne_of_pred hd ',' (by decide))
        (ne_of_pred hd ';' (by decide)), if_pos hd] at h
      split at h
      · simp only [Option.some.injEq, Prod.mk.injEq] at h
        cases h.1
      · cases h
    · rw [nextDescrCore_tail c r0 (ne_of_pred hi '=' (by decide))
        (ne_of_pred hi '+' (by decide)) (ne_of_pred hi '-' (by decide))
        (ne_of_pred hi '>' (by decide)) (ne_of_pred hi '<' (by decide))
        (ne_of_pred hi '!' (by decide)) (ne_of_pred hi '*' (by decide))
        (ne_of_pred hi '/' (by decide)) (ne_of_pred hi '(' (by decide))
        (ne_of_pred hi ')' (by decide)) (ne_of_pred hi '{' (by decide))
        (ne_of_pred hi '}' (by decide)) (ne_of_pred hi ',' (by decide))
        (ne_of_pred hi ';' (by decide)), if_neg (by simp [identCh_not_digit hi]),
        if_pos hi] at h
      simp only [Option.some.injEq, Prod.mk.injEq] at h
      exact lookupIdent_ne_eof _ h.1
    · exact hnn c (by simp) h0
    · obtain ⟨hw2, hd2, hi2, c1, c2, c3, c4, c5, c6, c7, c8, c9, c10, c11, c12, c13,
        c14, c15⟩ := illegalCh_spec hill
      rw [nextDescrCore_tail c r0 c1 c2 c3 c4 c5 c6 c7 c8 c9 c10 c11 c12 c13 c14,
        if_neg (by simp [hd2]), if_neg (by simp [hi2]), if_neg c15] at h
      simp only [Option.some.injEq, Prod.mk.injEq] at h
      cases h.1

theorem nextDescr_eof_no_nul (s : List Char) (r : List Char)
    (hnn : ∀ c ∈ s, c ≠ '\x00') (h : nextDescr s = some (Token.EOF, r)) : r = [] := by
  have hsub : ∀ c ∈ s.dropWhile isWsCh, c ≠ '\x00' := fun c hc =>
    hnn c ((List.dropWhile_sublist _).subset hc)
  exact (nextDescrCore_eof_no_nul _ r hsub h).2

theorem iter_next_none_inv (l l2 : Lexer) (hit : iter_next l = some (none, l2)) :
    next_token l = some (Token.EOF, l2) := by
  unfold iter_next at hit
  rcases hnt : next_token l with _ | ⟨t, l2b⟩ <;> rw [hnt] at hit
  · cases hit
  · cases t <;> simp_all

theorem iter_next_of_eof (l l2 : Lexer) (h : next_token l = some (Token.EOF, l2)) :
    iter_next l = some (none, l2) := by
  unfold iter_next
  rw [h]

theorem eof_absorbing (l l2 : Lexer) (h : CursorInv l) (hnn : NoNul l.input)
    (hit : iter_next l = some (none, l2)) :
    ∃ l3, iter_next l2 = some (none, l3) := by
  have hnt := iter_next_none_inv l l2 hit
  obtain ⟨hmap, hpres⟩ := next_token_descr l h
  rw [hnt] at hmap
  simp only [Option.map_some', Option.some.injEq, Prod.mk.injEq] at hmap
  have hnn2 : ∀ c ∈ l.suffix, c ≠ '\x00' := fun c hc =>
    hnn c (List.drop_subset _ _ hc)
  have hsf2 : l2.suffix = [] := nextDescr_eof_no_nul l.suffix l2.suffix hnn2 hmap.symm
  obtain ⟨hI2, _⟩ := hpres Token.EOF l2 hnt
  obtain ⟨hmap2, _⟩ := next_token_descr l2 hI2
  rw [hsf2, (by rfl : nextDescr [] = some (Token.EOF, []))] at hmap2
  rcases hnt2 : next_token l2 with _ | ⟨t3, l3⟩ <;> rw [hnt2] at hmap2
  · cases hmap2
  · simp only [Option.map_some', Option.some.injEq, Prod.mk.injEq] at hmap2
    obtain ⟨ht3, _⟩ := hmap2
    subst ht3
    exact ⟨l3, iter_next_of_eof l2 l3 hnt2⟩

/-! ## Cursor monotonicity -/

theorem rp_skipWsFuel : ∀ (f : Nat) (l : Lexer),
    l.read_position ≤ (skipWsFuel f l).read_position := by
  intro f
  induction f with
  | zero => intro l; exact le_refl _
  | succ f ih =>
    intro l
    by_cases hw : isWsCh l.ch = true
    · rw [(by simp [skipWsFuel, hw] : skipWsFuel (f + 1) l = skipWsFuel f (read_char l))]
      have h2 := ih (read_char l)
      rw [read_char_rp] at h2
      omega
    · rw [(by simp [skipWsFuel, hw] : skipWsFuel (f + 1) l = l)]

theorem rp_skip_whitespace (l : Lexer) :
    l.read_position ≤ (skip_whitespace l).read_position :=
  rp_skipWsFuel _ l

theorem rp_readRunFuel (p : Char → Bool) : ∀ (f : Nat) (l : Lexer),
    l.read_position ≤ (readRunFuel p f l).read_position := by
  intro f
  induction f with
  | zero => intro l; exact le_refl _
  | succ f ih =>
    intro l
    by_cases hq : p (peak_char l) = true
    · rw [(by simp [readRunFuel, hq] : readRunFuel p (f + 1) l = readRunFuel p f (read_char l))]
      have h2 := ih (read_char l)
      rw [read_char_rp] at h2
      omega
    · rw [(by simp [readRunFuel, hq] : readRunFuel p (f + 1) l = l)]

theorem rp_double_token (l : Lexer) (second : Char) (single double : Token) :
    l.read_position ≤ (double_token l second single double).2.read_position := by
  unfold double_token
  split
  · rw [read_char_rp]
    omega
  · exact le_refl _

theorem same_second (X l2 : Lexer) (t tok : Token) (h : some (tok, X) = some (t, l2)) :
    l2 = X := by
  simp only [Option.some.injEq, Prod.mk.injEq] at h
  exact h.2.symm

theorem dispatch_rp_lt (l : Lexer) (t : Token) (l2 : Lexer)
    (h : dispatch l = some (t, l2)) : l.read_position < l2.read_position := by
  rcases char_classify l.ch with hcw | hq | hmem | hd | hi | h0 | hill
  · have h1 : dispatch l = some (Token.ILLEGAL, read_char l) := by
      rw [dispatch_tail l (ne_of_pred hcw '=' (by decide))
        (ne_of_pred hcw '+' (by decide)) (ne_of_pred hcw '-' (by decide))
        (ne_of_pred hcw '>' (by decide)) (ne_of_pred hcw '<' (by decide))
        (ne_of_pred hcw '!' (by decide)) (ne_of_pred hcw '*' (by decide))
        (ne_of_pred hcw '/' (by decide)) (ne_of_pred hcw '(' (by decide))
        (ne_of_pred hcw ')' (by decide)) (ne_of_pred hcw '{' (by decide))
        (ne_of_pred hcw '}' (by decide)) (ne_of_pred hcw ',' (by decide))
        (ne_of_pred hcw ';' (by decide)), if_neg (by simp [wsCh_not_digit hcw]),
        if_neg (by simp [wsCh_not_ident hcw]),
        if_neg (ne_of_pred hcw '\x00' (by decide))]
    rw [same_second _ l2 t _ (h1.symm.trans h), read_char_rp]
    omega
  · rcases hq with hc | hc | hc | hc
    · have h1 := dispatch_compound l '=' Token.ASSIGN Token.EQ (by simp) hc
      rw [same_second _ l2 t _ (h1.symm.trans h), read_char_rp]
      have := rp_double_token l '=' Token.ASSIGN Token.EQ
      omega
    · have h1 := dispatch_compound l '>' Token.GT Token.GEQ (by simp) hc
      rw [same_second _ l2 t _ (h1.symm.trans h), read_char_rp]
      have := rp_double_token l '=' Token.GT Token.GEQ
      omega
    · have h1 := dispatch_compound l '<' Token.LT Token.LEQ (by simp) hc
      rw [same_second _ l2 t _ (h1.symm.trans h), read_char_rp]
      have := rp_double_token l '=' Token.LT Token.LEQ
      omega
    · have h1 := dispatch_compound l '!' Token.BANG Token.NEQ (by simp) hc
      rw [same_second _ l2 t _ (h1.symm.trans h), read_char_rp]
      have := rp_double_token l '=' Token.BANG Token.NEQ
      omega
  · simp only [List.mem_cons, List.not_mem_nil, or_false] at hmem
    rcases hmem with hc | hc | hc | hc | hc | hc | hc | hc | hc | hc
    · rw [same_second _ l2 t _ ((dispatch_single l '+' Token.PLUS (by simp) hc).symm.trans h),
        read_char_rp]
      omega
    · rw [same_second _ l2 t _ ((dispatch_single l '-' Token.MINUS (by simp) hc).symm.trans h),
        read_char_rp]
      omega
    · rw [same_second _ l2 t _ ((dispatch_single l '*' Token.ASTERISK (by simp) hc).symm.trans h),
        read_char_rp]
      omega
    · rw [same_second _ l2 t _ ((dispatch_single l '/' Token.SLASH (by simp) hc).symm.trans h),
        read_char_rp]
      omega
    · rw [same_second _ l2 t _ ((dispatch_single l '(' Token.LPAREN (by simp) hc).symm.trans h),
        read_char_rp]
      omega
    · rw [same_second _ l2 t _ ((dispatch_single l ')' Token.RPAREN (by simp) hc).symm.trans h),
        read_char_rp]
      omega
    · rw [same_second _ l2 t _ ((dispatch_single l '{' Token.LBRACE (by simp) hc).symm.trans h),
        read_char_rp]
      omega
    · rw [same_second _ l2 t _ ((dispatch_single l '}' Token.RBRACE (by simp) hc).symm.trans h),
        read_char_rp]
      omega
    · rw [same_second _ l2 t _ ((dispatch_single l ',' Token.COMMA (by simp) hc).symm.trans h),
        read_char_rp]
      omega
    · rw [same_second _ l2 t _ ((dispatch_single l ';' Token.SEMICOLON (by simp) hc).symm.trans h),
        read_char_rp]
      omega
  · rw [dispatch_digit l hd] at h
    rcases hp : (read_int l).1 with _ | v <;> rw [hp] at h
    · cases h
    · rw [same_second _ l2 t _ h, read_char_rp]
      have hrr : (read_int l).2 = readRunFuel isDigitCh (l.input.length + 1) l := rfl
      have := rp_readRunFuel isDigitCh (l.input.length + 1) l
      rw [hrr]
      omega
  · rw [dispatch_ident l hi] at h
    rw [same_second _ l2 t _ h, read_char_rp]
    have hrr : (read_ident l).2 = readRunFuel isIdentCh (l.input.length + 1) l := rfl
    have := rp_readRunFuel isIdentCh (l.input.length + 1) l
    rw [hrr]
    omega
  · rw [same_second _ l2 t _ ((dispatch_eof l h0).symm.trans h), read_char_rp]
    omega
  · rw [same_second _ l2 t _ ((dispatch_illegal l hill).symm.trans h), read_char_rp]
    omega

theorem next_token_rp_lt (l : Lexer) (t : Token) (l2 : Lexer)
    (h : next_token l = some (t, l2)) : l.read_position < l2.read_position := by
  have h1 := rp_skip_whitespace l
  have h2 := dispatch_rp_lt (skip_whitespace l) t l2 h
  omega

/-! ## UTF-8 byte model: single-byte addressing agreement -/

theorem ascii_charBytes {c : Char} (h : c.toNat < 128) : charBytes c = [c.toNat] := by
  unfold charBytes
  rw [if_pos h]

theorem ascii_utf8Bytes {s : List Char} (h : AsciiInput s) :
    utf8Bytes s = s.map Char.toNat := by
  induction s with
  | nil => rfl
  | cons c t ih =>
    have ht := ih fun d hd => h d (by simp [hd])
    show charBytes c ++ utf8Bytes t = List.map Char.toNat (c :: t)
    rw [ascii_charBytes (h c (by simp)), ht, List.map_cons]
    rfl

theorem ascii_utf8Len {s : List Char} (h : AsciiInput s) : utf8Len s = s.length := by
  unfold utf8Len
  rw [ascii_utf8Bytes h, List.length_map]

/-! ## ASCII agreement: the byte-faithful model coincides with the
character-granularity model on single-byte input -/

theorem peak_char_bytes_ascii (l : Lexer) (hA : AsciiInput l.input) :
    peak_char_bytes l = some (peak_char l) := by
  unfold peak_char_bytes peak_char
  rw [ascii_utf8Len hA]
  by_cases hle : l.input.length ≤ l.read_position
  · rw [if_pos hle, if_pos hle]
  · rw [if_neg hle, if_neg hle]
    push_neg at hle
    rw [List.get?_eq_getElem?, List.getElem?_eq_getElem hle,
      List.getD_eq_getElem l.input '\x00' hle]

theorem read_char_bytes_ascii (l : Lexer) (hA : AsciiInput l.input) :
    read_char_bytes l = some (read_char l) := by
  unfold read_char_bytes read_char
  rw [ascii_utf8Len hA]
  by_cases hle : l.input.length ≤ l.read_position
  · rw [if_pos hle, if_pos hle]
  · rw [if_neg hle, if_neg hle]
    push_neg at hle
    rw [List.get?_eq_getElem?, List.getElem?_eq_getElem hle,
      List.getD_eq_getElem l.input '\x00' hle]

theorem skipWsFuelB_ascii : ∀ (f : Nat) (l : Lexer), AsciiInput l.input →
    skipWsFuelB f l = some (skipWsFuel f l) := by
  intro f
  induction f with
  | zero => intro l _; rfl
  | succ f ih =>
    intro l hA
    by_cases hw : isWsCh l.ch = true
    · have h1 := read_char_bytes_ascii l hA
      have hB : skipWsFuelB (f + 1) l = skipWsFuelB f (read_char l) := by
        simp [skipWsFuelB, hw, h1]
      have hC : skipWsFuel (f + 1) l = skipWsFuel f (read_char l) := by
        simp [skipWsFuel, hw]
      rw [hB, hC]
      exact ih (read_char l) (by rw [read_char_input]; exact hA)
    · have hw2 : isWsCh l.ch = false := by simpa using hw
      simp [skipWsFuelB, skipWsFuel, hw2]

theorem skip_whitespace_bytes_ascii (l : Lexer) (hA : AsciiInput l.input) :
    skip_whitespace_bytes l = some (skip_whitespace l) := by
  unfold skip_whitespace_bytes skip_whitespace
  rw [ascii_utf8Len hA]
  exact skipWsFuelB_ascii _ l hA

theorem readRunFuelB_ascii (p : Char → Bool) : ∀ (f : Nat) (l : Lexer),
    AsciiInput l.input → readRunFuelB p f l = some (readRunFuel p f l) := by
  intro f
  induction f with
  | zero => intro l _; rfl
  | succ f ih =>
    intro l hA
    have hpk := peak_char_bytes_ascii l hA
    by_cases hq : p (peak_char l) = true
    · have h1 := read_char_bytes_ascii l hA
      have hB : readRunFuelB p (f + 1) l = readRunFuelB p f (read_char l) := by
        simp [readRunFuelB, hpk, hq, h1]
      have hC : readRunFuel p (f + 1) l = readRunFuel p f (read_char l) := by
        simp [readRunFuel, hq]
      rw [hB, hC]
      exact ih (read_char l) (by rw [read_char_input]; exact hA)
    · have hq2 : p (peak_char l) = false := by simpa using hq
      simp [readRunFuelB, readRunFuel, hpk, hq2]

theorem ascii_charIdxOfByte {s : List Char} (hA : AsciiInput s) :
    ∀ off : Nat, off ≤ s.length → charIdxOfByte s off = some off := by
  induction s with
  | nil =>
    intro off hoff
    have h0 : off = 0 := by simpa using hoff
    subst h0
    rfl
  | cons c t ih =>
    intro off hoff
    cases off with
    | zero => rfl
    | succ o =>
      have hc : charBytes c = [c.toNat] := ascii_charBytes (hA c (by simp))
      unfold charIdxOfByte
      rw [hc]
      simp only [List.length_cons, List.length_nil]
      rw [if_neg (by omega)]
      have ht : charIdxOfByte t (o + 1 - 1) = some o := by
        have := ih (fun d hd => hA d (by simp [hd])) o (by simp at hoff; omega)
        simpa using this
      rw [ht]
      rfl

theorem byteSlice_ascii {s : List Char} (hA : AsciiInput s) (a b1 : Nat)
    (hab : a ≤ b1) (hb : b1 ≤ s.length) :
    byteSlice s a b1 = some ((s.drop a).take (b1 - a)) := by
  unfold byteSlice
  rw [ascii_charIdxOfByte hA a (le_trans hab hb), ascii_charIdxOfByte hA b1 hb]
  simp [hab]


theorem readRunFuel_input (p : Char → Bool) : ∀ (f : Nat) (l : Lexer),
    (readRunFuel p f l).input = l.input := by
  intro f
  induction f with
  | zero => intro l; rfl
  | succ f ih =>
    intro l
    by_cases hq : p (peak_char l) = true
    · rw [(by simp [readRunFuel, hq] :
        readRunFuel p (f + 1) l = readRunFuel p f (read_char l)), ih, read_char_input]
    · simp [readRunFuel, hq]

theorem readRun_pos_bound (p : Char → Bool) (hp0 : p '\x00' = false) (l : Lexer)
    (h : CursorInv l) (hc : p l.ch = true) :
    l.position ≤ (readRunFuel p (l.input.length + 1) l).position ∧
    (readRunFuel p (l.input.length + 1) l).position + 1 ≤ l.input.length := by
  have hfuel : (l.suffix.tail.takeWhile p).length < l.input.length + 1 := by
    have h1 : (l.suffix.tail.takeWhile p).length ≤ l.suffix.tail.length :=
      (List.takeWhile_sublist _).length_le
    have h2 : l.suffix.tail.length ≤ l.suffix.length := (List.tail_sublist _).length_le
    have h3 := suffix_len_le l
    omega
  obtain ⟨_, _, hpos⟩ := readRunFuel_spec p hp0 (l.input.length + 1) l h hfuel
  have hposlt : l.position < l.input.length := by
    by_contra hge
    push_neg at hge
    have hch0 : l.ch = '\x00' := by rw [h.2, List.getD_eq_default _ _ hge]
    rw [hch0, hp0] at hc
    cases hc
  have hk : (l.suffix.tail.takeWhile p).length ≤ l.suffix.tail.length :=
    (List.takeWhile_sublist _).length_le
  have htl : l.suffix.tail.length = l.suffix.length - 1 := List.length_tail _
  have hsfxlen : l.suffix.length = l.input.length - l.position := by
    unfold Lexer.suffix
    rw [List.length_drop]
  rw [hpos]
  omega

theorem read_ident_bytes_ascii (l : Lexer) (hA : AsciiInput l.input) (h : CursorInv l)
    (hc : isIdentCh l.ch = true) : read_ident_bytes l = some (read_ident l) := by
  obtain ⟨hlo, hhi⟩ := readRun_pos_bound isIdentCh (by decide) l h hc
  have hrun := readRunFuelB_ascii isIdentCh (l.input.length + 1) l hA
  have hin2 : (readRunFuel isIdentCh (l.input.length + 1) l).input = l.input :=
    readRunFuel_input isIdentCh _ l
  have hident : read_ident l =
      (String.mk ((l.input.drop l.position).take
        ((readRunFuel isIdentCh (l.input.length + 1) l).position + 1 - l.position)),
       readRunFuel isIdentCh (l.input.length + 1) l) := by
    simp only [read_ident, hin2]
  unfold read_ident_bytes
  rw [ascii_utf8Len hA, hrun]
  show (match byteSlice (readRunFuel isIdentCh (l.input.length + 1) l).input l.position
      ((readRunFuel isIdentCh (l.input.length + 1) l).position + 1) with
    | none => none
    | some cs => some (String.mk cs, readRunFuel isIdentCh (l.input.length + 1) l))
    = some (read_ident l)
  rw [hin2, byteSlice_ascii hA l.position _ (by omega) hhi, hident]

theorem read_int_bytes_ascii (l : Lexer) (hA : AsciiInput l.input) (h : CursorInv l)
    (hc : isDigitCh l.ch = true) :
    read_int_bytes l =
      match (read_int l).1 with
      | none => none
      | some v => some (v, (read_int l).2) := by
  obtain ⟨hlo, hhi⟩ := readRun_pos_bound isDigitCh (by decide) l h hc
  have hrun := readRunFuelB_ascii isDigitCh (l.input.length + 1) l hA
  have hin2 : (readRunFuel isDigitCh (l.input.length + 1) l).input = l.input :=
    readRunFuel_input isDigitCh _ l
  have hfst : (read_int l).1 =
      parse_i32 (String.mk ((l.input.drop l.position).take
        ((readRunFuel isDigitCh (l.input.length + 1) l).position + 1 - l.position))) := by
    simp only [read_int, hin2]
  have hsnd : (read_int l).2 = readRunFuel isDigitCh (l.input.length + 1) l := rfl
  unfold read_int_bytes
  rw [ascii_utf8Len hA, hrun]
  show (match byteSlice (readRunFuel isDigitCh (l.input.length + 1) l).input l.position
      ((readRunFuel isDigitCh (l.input.length + 1) l).position + 1) with
    | none => none
    | some cs =>
      match parse_i32 (String.mk cs) with
      | none => none
      | some v => some (v, readRunFuel isDigitCh (l.input.length + 1) l)) = _
  rw [hin2, byteSlice_ascii hA l.position _ (by omega) hhi, hfst, hsnd]

theorem double_token_input (l : Lexer) (second : Char) (sg db : Token) :
    (double_token l second sg db).2.input = l.input := by
  unfold double_token
  split
  · rfl
  · rfl

theorem double_token_bytes_ascii (l : Lexer) (hA : AsciiInput l.input) (second : Char)
    (sg db : Token) :
    double_token_bytes l second sg db = some (double_token l second sg db) := by
  unfold double_token_bytes double_token
  rw [peak_char_bytes_ascii l hA]
  show (if peak_char l = second then
      (match read_char_bytes l with | none => none | some l2 => some (db, l2))
    else some (sg, l))
    = some (if peak_char l = second then (db, read_char l) else (sg, l))
  by_cases hp : peak_char l = second
  · rw [if_pos hp, if_pos hp, read_char_bytes_ascii l hA]
  · rw [if_neg hp, if_neg hp]

theorem finish_bytes_ascii (t : Token) (l : Lexer) (hA : AsciiInput l.input) :
    finish_bytes t l = some (t, read_char l) := by
  unfold finish_bytes
  rw [read_char_bytes_ascii l hA]


theorem dispatch_bytes_ascii (l : Lexer) (hA : AsciiInput l.input) (h : CursorInv l) :
    dispatch_bytes l = dispatch l := by
  have hcomp : ∀ sg db : Token,
      (match double_token_bytes l '=' sg db with
        | none => none
        | some p => finish_bytes p.1 p.2)
      = some ((double_token l '=' sg db).1,
          read_char (double_token l '=' sg db).2) := by
    intro sg db
    rw [double_token_bytes_ascii l hA '=' sg db]
    show finish_bytes (double_token l '=' sg db).1 (double_token l '=' sg db).2 = _
    exact finish_bytes_ascii _ _ (by rw [double_token_input l '=' sg db]; exact hA)
  unfold dispatch_bytes dispatch
  by_cases h1 : l.ch = '='
  · simp only [if_pos h1]
    exact hcomp Token.ASSIGN Token.EQ
  simp only [if_neg h1]
  by_cases h2 : l.ch = '+'
  · simp only [if_pos h2]
    exact finish_bytes_ascii Token.PLUS l hA
  simp only [if_neg h2]
  by_cases h3 : l.ch = '-'
  · simp only [if_pos h3]
    exact finish_bytes_ascii Token.MINUS l hA
  simp only [if_neg h3]
  by_cases h4 : l.ch = '>'
  · simp only [if_pos h4]
    exact hcomp Token.GT Token.GEQ
  simp only [if_neg h4]
  by_cases h5 : l.ch = '<'
  · simp only [if_pos h5]
    exact hcomp Token.LT Token.LEQ
  simp only [if_neg h5]
  by_cases h6 : l.ch = '!'
  · simp only [if_pos h6]
    exact hcomp Token.BANG Token.NEQ
  simp only [if_neg h6]
  by_cases h7 : l.ch = '*'
  · simp only [if_pos h7]
    exact finish_bytes_ascii Token.ASTERISK l hA
  simp only [if_neg h7]
  by_cases h8 : l.ch = '/'
  · simp only [if_pos h8]
    exact finish_bytes_ascii Token.SLASH l hA
  simp only [if_neg h8]
  by_cases h9 : l.ch = '('
  · simp only [if_pos h9]
    exact finish_bytes_ascii Token.LPAREN l hA
  simp only [if_neg h9]
  by_cases h10 : l.ch = ')'
  · simp only [if_pos h10]
    exact finish_bytes_ascii Token.RPAREN l hA
  simp only [if_neg h10]
  by_cases h11 : l.ch = '{'
  · simp only [if_pos h11]
    exact finish_bytes_ascii Token.LBRACE l hA
  simp only [if_neg h11]
  by_cases h12 : l.ch = '}'
  · simp only [if_pos h12]
    exact finish_bytes_ascii Token.RBRACE l hA
  simp only [if_neg h12]
  by_cases h13 : l.ch = ','
  · simp only [if_pos h13]
    exact finish_bytes_ascii Token.COMMA l hA
  simp only [if_neg h13]
  by_cases h14 : l.ch = ';'
  · simp only [if_pos h14]
    exact finish_bytes_ascii Token.SEMICOLON l hA
  simp only [if_neg h14]
  by_cases hd : isDigitCh l.ch = true
  · simp only [if_pos hd]
    rw [read_int_bytes_ascii l hA h hd]
    have hin : (read_int l).2.input = l.input := readRunFuel_input isDigitCh _ l
    cases hv : (read_int l).1 with
    | none => rfl
    | some v =>
      show finish_bytes (Token.INT v) (read_int l).2
        = some (Token.INT v, read_char (read_int l).2)
      exact finish_bytes_ascii _ _ (by rw [hin]; exact hA)
  simp only [if_neg hd]
  by_cases hi : isIdentCh l.ch = true
  · simp only [if_pos hi]
    rw [read_ident_bytes_ascii l hA h hi]
    show finish_bytes (lookupIdent (read_ident l).1) (read_ident l).2
      = some (lookupIdent (read_ident l).1, read_char (read_ident l).2)
    have hin : (read_ident l).2.input = l.input := readRunFuel_input isIdentCh _ l
    exact finish_bytes_ascii _ _ (by rw [hin]; exact hA)
  simp only [if_neg hi]
  by_cases h0 : l.ch = '\x00'
  · simp only [if_pos h0]
    exact finish_bytes_ascii Token.EOF l hA
  simp only [if_neg h0]
  exact finish_bytes_ascii Token.ILLEGAL l hA

theorem next_token_bytes_ascii (l : Lexer) (hA : AsciiInput l.input) (h : CursorInv l) :
    next_token_bytes l = next_token l := by
  unfold next_token_bytes next_token
  rw [skip_whitespace_bytes_ascii l hA]
  obtain ⟨hI, hin, -⟩ := skip_whitespace_spec l h
  show dispatch_bytes (skip_whitespace l) = dispatch (skip_whitespace l)
  exact dispatch_bytes_ascii _ (by rw [hin]; exact hA) hI

theorem runFuelB_ascii : ∀ (f : Nat) (l : Lexer), AsciiInput l.input → CursorInv l →
    runFuelB f l = runFuel f l := by
  intro f
  induction f with
  | zero => intro l _ _; rfl
  | succ f ih =>
    intro l hA h
    show (match next_token_bytes l with
      | none => Run.panic
      | some (Token.EOF, _) => Run.done []
      | some (t, l2) => Run.cons t (runFuelB f l2)) = runFuel (f + 1) l
    rw [next_token_bytes_ascii l hA h]
    cases hnt : next_token l with
    | none => rw [runFuel_panic_step f l hnt]
    | some p =>
      obtain ⟨t, l2⟩ := p
      obtain ⟨hI2, hin2⟩ := (next_token_descr l h).2 t l2 hnt
      have hrec : runFuelB f l2 = runFuel f l2 := ih l2 (by rw [hin2]; exact hA) hI2
      cases t <;>
        first
          | rw [runFuel_eof_step f l l2 hnt]
          | (rw [runFuel_cons_step f l _ l2 hnt (by intro hc; cases hc)]
             exact congrArg (Run.cons _) hrec)

theorem tokens_bytes_ascii (input : List Char) (hA : AsciiInput input) :
    Lexer.tokens_bytes input = Lexer.tokens input :=
  runFuelB_ascii (input.length + 1) (Lexer.new input) hA (cursorInv_new input)

/-! ## Claim-level helper lemmas -/

theorem next_token_compound (l : Lexer) (c : Char) (ts td : Token)
    (hct : (c, (ts, td)) ∈ [('=', (Token.ASSIGN, Token.EQ)), ('>', (Token.GT, Token.GEQ)),
      ('<', (Token.LT, Token.LEQ)), ('!', (Token.BANG, Token.NEQ))])
    (hch : l.ch = c) (hws : isWsCh c = false) :
    (peak_char l = '=' → next_token l = some (td, read_char (read_char l))) ∧
    (peak_char l ≠ '=' → next_token l = some (ts, read_char l)) := by
  have hskip : skip_whitespace l = l := skip_ws_id (by rw [hch]; exact hws)
  have harm := dispatch_compound l c ts td hct hch
  have hdd := dispatch_double l '=' ts td harm
  constructor
  · intro hp
    show dispatch (skip_whitespace l) = _
    rw [hskip]
    exact hdd.1 hp
  · intro hp
    show dispatch (skip_whitespace l) = _
    rw [hskip]
    exact hdd.2 hp

theorem next_token_bytes_compound (l : Lexer) (c : Char) (ts td : Token)
    (hct : (c, (ts, td)) ∈ [('=', (Token.ASSIGN, Token.EQ)), ('>', (Token.GT, Token.GEQ)),
      ('<', (Token.LT, Token.LEQ)), ('!', (Token.BANG, Token.NEQ))])
    (hA : AsciiInput l.input) (h : CursorInv l) (hch : l.ch = c)
    (hws : isWsCh c = false) :
    (peak_char_bytes l = some '=' →
      next_token_bytes l = some (td, read_char (read_char l))) ∧
    (peak_char_bytes l ≠ some '=' →
      next_token_bytes l = some (ts, read_char l)) := by
  have hpk := peak_char_bytes_ascii l hA
  have hnb := next_token_bytes_ascii l hA h
  have hcc := next_token_compound l c ts td hct hch hws
  constructor
  · intro hp
    rw [hpk] at hp
    rw [hnb]
    exact hcc.1 (Option.some.inj hp)
  · intro hp
    rw [hpk] at hp
    rw [hnb]
    exact hcc.2 (fun he => hp (by rw [he]))

theorem next_token_ident_path (l : Lexer) (hi : isIdentCh l.ch = true) :
    next_token l = some (lookupIdent (read_ident l).1, read_char (read_ident l).2) := by
  show dispatch (skip_whitespace l) = _
  rw [skip_ws_id (identCh_not_ws hi)]
  exact dispatch_ident l hi

theorem digits_lexeme_facts (l : Lexer) (h : CursorInv l) (hd : isDigitCh l.ch = true) :
    l.suffix.takeWhile isDigitCh ≠ [] ∧
    (l.suffix.takeWhile isDigitCh).all isDigitCh = true := by
  constructor
  · have hch := ch_eq_headD l h
    rcases hsfx : l.suffix with _ | ⟨c, t⟩
    · rw [hsfx] at hch
      simp at hch
      rw [hch] at hd
      exact absurd hd (by decide)
    · rw [hsfx] at hch
      simp at hch
      have hdc : isDigitCh c = true := by rw [← hch]; exact hd
      rw [List.takeWhile_cons, if_pos hdc]
      simp
  · rw [List.all_eq_true]
    exact fun x hx => List.mem_takeWhile_imp hx

/-! ## Claim theorems -/

/-- C1 counterexample: maximal munch does not hold at every reachable
state whose current character is a compound-aware operator.  On input
`"é="` the scanner reaches the state whose current character is `=`
(after emitting `ILLEGAL` for `é`); the claim then demands `ASSIGN` (no
following `=`), but `next_token` panics instead: the byte-length bounds
check `read_position >= input.len()` passes (2 < 3) while
`chars().nth(2)` is `None`, so the `unwrap` aborts, and the whole scan of
`"é="` aborts. -/
theorem claim_C1_counterexample :
    next_token_bytes (Lexer.new ['é', '=']) =
      some (Token.ILLEGAL,
        { input := ['é', '='], position := 1, read_position := 2, ch := '=' }) ∧
    next_token_bytes
      { input := ['é', '='], position := 1, read_position := 2, ch := '=' } = none ∧
    Lexer.tokens_bytes ['é', '='] = Run.panic := by
  refine ⟨by decide, by decide, by decide⟩

/-- C1 (amended): Maximal munch for compound operators on single-byte
(ASCII) input.  For every character-consistent scanner state over ASCII
input whose current character is one of `=`, `>`, `<`, `!`: if the peek
yields `=`, `next_token` consumes both characters (two `read_char`
advances) and emits the doubled token (`EQ`, `GEQ`, `LEQ`, `NEQ`);
otherwise it consumes only the current character and emits the
single-character token (`ASSIGN`, `GT`, `LT`, `BANG`).  In particular the
input `"=="` yields exactly one `EQ` token, never two `ASSIGN` tokens. -/
theorem claim_C1_maximal_munch :
    (∀ l : Lexer, AsciiInput l.input → CursorInv l → l.ch = '=' →
      (peak_char_bytes l = some '=' →
        next_token_bytes l = some (Token.EQ, read_char (read_char l))) ∧
      (peak_char_bytes l ≠ some '=' →
        next_token_bytes l = some (Token.ASSIGN, read_char l))) ∧
    (∀ l : Lexer, AsciiInput l.input → CursorInv l → l.ch = '>' →
      (peak_char_bytes l = some '=' →
        next_token_bytes l = some (Token.GEQ, read_char (read_char l))) ∧
      (peak_char_bytes l ≠ some '=' →
        next_token_bytes l = some (Token.GT, read_char l))) ∧
    (∀ l : Lexer, AsciiInput l.input → CursorInv l → l.ch = '<' →
      (peak_char_bytes l = some '=' →
        next_token_bytes l = some (Token.LEQ, read_char (read_char l))) ∧
      (peak_char_bytes l ≠ some '=' →
        next_token_bytes l = some (Token.LT, read_char l))) ∧
    (∀ l : Lexer, AsciiInput l.input → CursorInv l → l.ch = '!' →
      (peak_char_bytes l = some '=' →
        next_token_bytes l = some (Token.NEQ, read_char (read_char l))) ∧
      (peak_char_bytes l ≠ some '=' →
        next_token_bytes l = some (Token.BANG, read_char l))) ∧
    Lexer.tokens_bytes ['=', '='] = Run.done [Token.EQ] := by
  refine ⟨?_, ?_, ?_, ?_, by decide⟩
  · exact fun l hA h hch =>
      next_token_bytes_compound l '=' Token.ASSIGN Token.EQ (by simp) hA h hch (by decide)
  · exact fun l hA h hch =>
      next_token_bytes_compound l '>' Token.GT Token.GEQ (by simp) hA h hch (by decide)
  · exact fun l hA h hch =>
      next_token_bytes_compound l '<' Token.LT Token.LEQ (by simp) hA h hch (by decide)
  · exact fun l hA h hch =>
      next_token_bytes_compound l '!' Token.BANG Token.NEQ (by simp) hA h hch (by decide)

/-- Witness for amended C1 at a concrete input: on the fresh scanner over
`"=="` (ASCII, character-consistent), the current character is `=`, the
peek yields `=`, and one `next_token` call emits a single `EQ` consuming
both characters. -/
theorem claim_C1_maximal_munch_witness :
    next_token_bytes (Lexer.new ['=', '=']) =
      some (Token.EQ, read_char (read_char (Lexer.new ['=', '=']))) :=
  (claim_C1_maximal_munch.1 (Lexer.new ['=', '='])
    (by decide) (by decide) (by decide)).1 (by decide)

/-- C2 counterexample: the identifier path does not always emit the
lexeme it consumed.  On input `"éé_a+"` the scanner reaches the
identifier-path state at `_` (position 2), having emitted `ILLEGAL`
twice; the identifier loop consumes the run `_a` (the characters at
positions 2 and 3), but the emitted lexeme is the byte slice
`input[2..=3]`, which holds exactly the second `é` — so the token is
`IDENT "é"`, not a token carrying the consumed run `"_a"`; the full scan
then aborts at the trailing `+`. -/
theorem claim_C2_counterexample :
    next_token_bytes (Lexer.new ['é', 'é', '_', 'a', '+']) =
      some (Token.ILLEGAL,
        { input := ['é', 'é', '_', 'a', '+'], position := 1, read_position := 2,
          ch := 'é' }) ∧
    next_token_bytes
        { input := ['é', 'é', '_', 'a', '+'], position := 1, read_position := 2,
          ch := 'é' } =
      some (Token.ILLEGAL,
        { input := ['é', 'é', '_', 'a', '+'], position := 2, read_position := 3,
          ch := '_' }) ∧
    isIdentCh '_' = true ∧
    read_ident_bytes
        { input := ['é', 'é', '_', 'a', '+'], position := 2, read_position := 3,
          ch := '_' } =
      some ("é",
        { input := ['é', 'é', '_', 'a', '+'], position := 3, read_position := 4,
          ch := 'a' }) ∧
    next_token_bytes
        { input := ['é', 'é', '_', 'a', '+'], position := 2, read_position := 3,
          ch := '_' } =
      some (Token.IDENT "é",
        { input := ['é', 'é', '_', 'a', '+'], position := 4, read_position := 5,
          ch := '+' }) ∧
    (['é', 'é', '_', 'a', '+'].drop 2).take 2 = ['_', 'a'] ∧
    Token.IDENT "é" ≠ Token.IDENT "_a" ∧
    Lexer.tokens_bytes ['é', 'é', '_', 'a', '+'] = Run.panic := by
  refine ⟨by decide, by decide, by decide, by decide, by decide, by decide, by decide,
    by decide⟩

/-- C2 (amended): Keyword closure on single-byte (ASCII) input.  On every
character-consistent scanner state over ASCII input whose current
character is a letter or underscore, the byte-faithful identifier read
succeeds with exactly the lexeme of `read_ident` and the emitted token is
`lookupIdent` of that lexeme; the fixed table `lookupIdent` maps exactly
the seven keywords `fn`, `let`, `true`, `false`, `if`, `else`, `return`
to their keyword kinds (never `IDENT`), and every other lexeme to `IDENT`
carrying the lexeme's exact text. -/
theorem claim_C2_keyword_closure :
    (∀ l : Lexer, AsciiInput l.input → CursorInv l → isIdentCh l.ch = true →
      read_ident_bytes l = some (read_ident l) ∧
      next_token_bytes l =
        some (lookupIdent (read_ident l).1, read_char (read_ident l).2)) ∧
    lookupIdent "fn" = Token.FUNCTION ∧ lookupIdent "let" = Token.LET ∧
    lookupIdent "true" = Token.TRUE ∧ lookupIdent "false" = Token.FALSE ∧
    lookupIdent "if" = Token.IF ∧ lookupIdent "else" = Token.ELSE ∧
    lookupIdent "return" = Token.RETURN ∧
    (∀ s : String,
      s ∉ (["fn", "let", "true", "false", "if", "else", "return"] : List String) →
      lookupIdent s = Token.IDENT s) ∧
    (∀ s t : String, lookupIdent s = Token.IDENT t → t = s) := by
  refine ⟨?_, by decide, by decide, by decide, by decide, by decide,
    by decide, by decide, ?_, ?_⟩
  · intro l hA h hi
    refine ⟨read_ident_bytes_ascii l hA h hi, ?_⟩
    rw [next_token_bytes_ascii l hA h]
    exact next_token_ident_path l hi
  · intro s hs
    simp only [List.mem_cons, List.not_mem_nil, or_false, not_or] at hs
    obtain ⟨n1, n2, n3, n4, n5, n6, n7⟩ := hs
    unfold lookupIdent
    rw [if_neg n1, if_neg n2, if_neg n3, if_neg n4, if_neg n5, if_neg n6, if_neg n7]
  · intro s t h
    unfold lookupIdent at h
    split_ifs at h <;> first
      | (exfalso; exact Token.noConfusion h)
      | (injection h with h2; exact h2.symm)

/-- Witness for amended C2 at a concrete state: on the fresh scanner over
`"fn"` (ASCII, character-consistent), the current character is a letter,
the byte-faithful read agrees with `read_ident`, and the emitted token is
the keyword lookup of the lexeme. -/
theorem claim_C2_keyword_closure_witness :
    read_ident_bytes (Lexer.new ['f', 'n']) =
      some (read_ident (Lexer.new ['f', 'n'])) ∧
    next_token_bytes (Lexer.new ['f', 'n']) =
      some (lookupIdent (read_ident (Lexer.new ['f', 'n'])).1,
        read_char (read_ident (Lexer.new ['f', 'n'])).2) :=
  claim_C2_keyword_closure.1 (Lexer.new ['f', 'n']) (by decide) (by decide) (by decide)

/-- C3 counterexample: the identifier run does NOT continue over digits.
On input `"a1"` the scanner emits `IDENT "a"` followed by `INT 1`; it
does not emit the single lexeme `IDENT "a1"` the claim predicts. -/
theorem claim_C3_counterexample :
    Lexer.tokens_bytes ['a', '1'] = Run.done [Token.IDENT "a", Token.INT 1] ∧
    Lexer.tokens_bytes ['a', '1'] ≠ Run.done [Token.IDENT "a1"] := by
  refine ⟨by decide, by decide⟩

/-- C3 (amended): when, over single-byte (ASCII) input, the current
character of a character-consistent state is a letter or underscore, the
scanner reads the maximal run of letters and underscores only (a digit,
like any other non-identifier character, terminates the run), the
byte-faithful slice yields exactly that run, and the whole run is the
lexeme looked up against the keyword table / emitted as `IDENT`. -/
theorem claim_C3_ident_lexeme_shape :
    ∀ l : Lexer, AsciiInput l.input → CursorInv l → isIdentCh l.ch = true →
      read_ident_bytes l = some (read_ident l) ∧
      (read_ident l).1 = String.mk (l.suffix.takeWhile isIdentCh) ∧
      next_token_bytes l =
        some (lookupIdent (String.mk (l.suffix.takeWhile isIdentCh)),
          read_char (read_ident l).2) := by
  intro l hA h hi
  obtain ⟨hlex, _, _, _⟩ := read_ident_spec l h hi
  refine ⟨read_ident_bytes_ascii l hA h hi, hlex, ?_⟩
  rw [next_token_bytes_ascii l hA h, next_token_ident_path l hi, hlex]

/-- Witness for amended C3: on the fresh scanner over `"ab1"` (ASCII,
character-consistent, current character a letter), the byte-faithful read
succeeds and the lexeme read is exactly `"ab"` (the digit terminates the
run). -/
theorem claim_C3_ident_lexeme_shape_witness :
    read_ident_bytes (Lexer.new ['a', 'b', '1']) =
      some (read_ident (Lexer.new ['a', 'b', '1'])) ∧
    (read_ident (Lexer.new ['a', 'b', '1'])).1 =
      String.mk ((Lexer.new ['a', 'b', '1']).suffix.takeWhile isIdentCh) ∧
    next_token_bytes (Lexer.new ['a', 'b', '1']) =
      some (lookupIdent (String.mk ((Lexer.new ['a', 'b', '1']).suffix.takeWhile
        isIdentCh)), read_char (read_ident (Lexer.new ['a', 'b', '1'])).2) :=
  claim_C3_ident_lexeme_shape (Lexer.new ['a', 'b', '1']) (by decide) (by decide)
    (by decide)

/-- C4 counterexample: a digit run whose value fits `i32` does not always
yield an `INT` token.  On input `"é1"` the scanner reaches the digit
state at `1` (after emitting `ILLEGAL` for `é`); the digit run is `"1"`
and fits `i32`, yet `next_token` panics there: the digit loop's peek
passes the byte-length bounds check (2 < 3) while `chars().nth(2)` is
`None`, so the `unwrap` aborts and the whole scan aborts. -/
theorem claim_C4_counterexample :
    next_token_bytes (Lexer.new ['é', '1']) =
      some (Token.ILLEGAL,
        { input := ['é', '1'], position := 1, read_position := 2, ch := '1' }) ∧
    isDigitCh '1' = true ∧
    digitsVal ['1'] ≤ 2147483647 ∧
    next_token_bytes
      { input := ['é', '1'], position := 1, read_position := 2, ch := '1' } = none ∧
    Lexer.tokens_bytes ['é', '1'] = Run.panic := by
  refine ⟨by decide, by decide, by decide, by decide, by decide⟩

/-- C4 (amended): Fatal overflow on large integer literals, with the
fitting-value guarantee restricted to single-byte (ASCII) input.  The
input `"2147483648"` (one more than `i32::MAX`) makes the scan abort (the
integer-parsing step panics, modelled as `none`/`Run.panic`) instead of
returning a token; and on every character-consistent state over ASCII
input starting a digit run, if the run's value fits `i32` then
`next_token` returns `INT` with exactly that value, while if it exceeds
`i32::MAX` then `next_token` aborts. -/
theorem claim_C4_int_overflow :
    Lexer.tokens_bytes ['2', '1', '4', '7', '4', '8', '3', '6', '4', '8'] = Run.panic ∧
    (∀ l : Lexer, AsciiInput l.input → CursorInv l → isDigitCh l.ch = true →
      (digitsVal (l.suffix.takeWhile isDigitCh) ≤ 2147483647 →
        ∃ l2, next_token_bytes l =
          some (Token.INT (Int.ofNat (digitsVal (l.suffix.takeWhile isDigitCh))), l2)) ∧
      (2147483647 < digitsVal (l.suffix.takeWhile isDigitCh) →
        next_token_bytes l = none)) := by
  constructor
  · rw [tokens_bytes_ascii _ (by decide)]
    decide
  · intro l hA h hd
    rw [next_token_bytes_ascii l hA h]
    obtain ⟨hne, hall⟩ := digits_lexeme_facts l h hd
    obtain ⟨hlex, _, _, _⟩ := read_int_spec l h hd
    have hnt : next_token l =
        match (read_int l).1 with
        | some v => some (Token.INT v, read_char (read_int l).2)
        | none => none := by
      show dispatch (skip_whitespace l) = _
      rw [skip_ws_id (digitCh_not_ws hd)]
      exact dispatch_digit l hd
    have hdata : (String.mk (l.suffix.takeWhile isDigitCh)).data
        = l.suffix.takeWhile isDigitCh := rfl
    constructor
    · intro hle
      refine ⟨read_char (read_int l).2, ?_⟩
      have hp : (read_int l).1
          = some (Int.ofNat (digitsVal (l.suffix.takeWhile isDigitCh))) := by
        rw [hlex]
        unfold parse_i32
        rw [hdata, if_pos ⟨hne, hall, hle⟩]
      rw [hnt, hp]
    · intro hgt
      have hp : (read_int l).1 = none := by
        rw [hlex]
        unfold parse_i32
        rw [hdata, if_neg (by intro hcon; omega)]
      rw [hnt, hp]

/-- Witness for amended C4 at a concrete state: on the fresh scanner over
`"7"` (ASCII, character-consistent), the digit run fits `i32` and
`next_token` returns `INT` of its value. -/
theorem claim_C4_int_overflow_witness :
    ∃ l2, next_token_bytes (Lexer.new ['7']) = some
      (Token.INT (Int.ofNat (digitsVal ((Lexer.new ['7']).suffix.takeWhile isDigitCh))),
        l2) :=
  ((claim_C4_int_overflow.2 (Lexer.new ['7']) (by decide) (by decide) (by decide)).1
    (by decide))

/-- C5 counterexample: exhaustion is NOT absorbing on every input.  The
input containing a real null character followed by `a` makes the first
iterator pull yield "no more items" (the null hits the end-of-input arm),
yet the second pull yields `Some (IDENT "a")`. -/
theorem claim_C5_counterexample :
    (iter_next (Lexer.new ['\x00', 'a'])).map (fun p => p.1) = some none ∧
    ((iter_next (Lexer.new ['\x00', 'a'])).bind
      (fun p => (iter_next p.2).map (fun q => q.1))) = some (some (Token.IDENT "a")) := by
  constructor
  · decide
  · decide

/-- C5 (amended): for every input, the visible token sequence is finite
(the drain completes within `length + 1` pulls) and never contains the
`EOF` token; and for every input containing no null character, once the
iterator has yielded "no more items" every subsequent pull also yields
"no more items". -/
theorem claim_C5_exhaustion :
    (∀ input : List Char, (Lexer.tokens input).isMore = false) ∧
    (∀ (input : List Char) (ts : List Token), Lexer.tokens input = Run.done ts →
      Token.EOF ∉ ts) ∧
    (∀ l l2 : Lexer, CursorInv l → NoNul l.input → iter_next l = some (none, l2) →
      ∃ l3, iter_next l2 = some (none, l3)) :=
  ⟨tokens_complete, fun _ ts h => runFuel_no_eof _ _ ts h, eof_absorbing⟩

/-- Witness for amended C5: on input `" "` the first pull yields nothing,
and pulling again from the advanced state yields nothing as well. -/
theorem claim_C5_exhaustion_witness :
    ∃ l3, iter_next { input := [' '], position := 2, read_position := 3, ch := '\x00' } =
      some (none, l3) :=
  claim_C5_exhaustion.2.2 (Lexer.new [' '])
    { input := [' '], position := 2, read_position := 3, ch := '\x00' }
    (by decide) (by decide) (by decide)

/-- C6 counterexample: an unrecognized character does not always let the
scan continue.  On input `"aé"`, after `IDENT "a"` the scanner reaches
the state whose current character is the unrecognized `é`, and there
`next_token` panics in the trailing `read_char` (the byte-length bounds
check passes, 2 < 3, while `chars().nth(2)` is `None`) before the
`ILLEGAL` token is ever returned; likewise the scan of `"a é b"` aborts
at `b` instead of producing the surrounding valid tokens. -/
theorem claim_C6_counterexample :
    next_token_bytes (Lexer.new ['a', 'é']) =
      some (Token.IDENT "a",
        { input := ['a', 'é'], position := 1, read_position := 2, ch := 'é' }) ∧
    isIllegalCh 'é' = true ∧
    next_token_bytes
      { input := ['a', 'é'], position := 1, read_position := 2, ch := 'é' } = none ∧
    Lexer.tokens_bytes ['a', ' ', 'é', ' ', 'b'] = Run.panic := by
  refine ⟨by decide, by decide, by decide, by decide⟩

/-- C6 (amended): Illegal-character non-halting on single-byte (ASCII)
input.  On every character-consistent state over ASCII input whose
current character is unrecognized, `next_token` emits exactly one
`ILLEGAL` token and advances one character — the scan continues rather
than stopping.  On the concrete input `"let @ x"` the full scan produces
the surrounding valid tokens with exactly one `ILLEGAL` interleaved at
the position of `@`. -/
theorem claim_C6_illegal_non_halting :
    (∀ l : Lexer, AsciiInput l.input → CursorInv l → isIllegalCh l.ch = true →
      next_token_bytes l = some (Token.ILLEGAL, read_char l)) ∧
    Lexer.tokens_bytes ['l', 'e', 't', ' ', '@', ' ', 'x'] =
      Run.done [Token.LET, Token.ILLEGAL, Token.IDENT "x"] := by
  constructor
  · intro l hA h hill
    rw [next_token_bytes_ascii l hA h]
    show dispatch (skip_whitespace l) = _
    rw [skip_ws_id (illegalCh_spec hill).1]
    exact dispatch_illegal l hill
  · rw [tokens_bytes_ascii _ (by decide)]
    decide

/-- Witness for amended C6 at a concrete state: on the fresh scanner over
`"@x"` (ASCII, character-consistent), `@` is unrecognized and emits one
`ILLEGAL` token, advancing by one character. -/
theorem claim_C6_illegal_non_halting_witness :
    next_token_bytes (Lexer.new ['@', 'x']) =
      some (Token.ILLEGAL, read_char (Lexer.new ['@', 'x'])) :=
  claim_C6_illegal_non_halting.1 (Lexer.new ['@', 'x']) (by decide) (by decide)
    (by decide)

/-- C7: Whitespace transparency.  Two inputs that decompose into the same
sequence of complete token lexemes, differing only in the whitespace runs
before, between and after them (`ScansL`), produce identical token
sequences; and all-whitespace input produces no tokens at all. -/
theorem claim_C7_ws_transparency :
    (∀ (s s2 : List Char) (ts : List Token), ScansL s ts → ScansL s2 ts →
      Lexer.tokens s = Lexer.tokens s2) ∧
    (∀ w : List Char, (∀ c ∈ w, isWsCh c = true) → Lexer.tokens w = Run.done []) := by
  constructor
  · intro s s2 ts h1 h2
    rw [tokens_of_scansL h1, tokens_of_scansL h2]
  · intro w hw
    exact tokens_of_scansL (ScansL.nil w hw)

/-- Witness for C7: `"+ "` and `" +"` differ only in where the whitespace
run sits relative to the `+` lexeme and scan to the same sequence. -/
theorem claim_C7_ws_transparency_witness :
    Lexer.tokens ['+', ' '] = Lexer.tokens [' ', '+'] := by
  have h1 : ScansL ['+', ' '] [Token.PLUS] := by
    have hs := ScansL.cons [] ['+'] [' '] Token.PLUS [] (by simp) (by decide) (by decide)
      (ScansL.nil [' '] (by decide))
    simpa using hs
  have h2 : ScansL [' ', '+'] [Token.PLUS] := by
    have hs := ScansL.cons [' '] ['+'] [] Token.PLUS [] (by decide) (by decide)
      (by decide) (ScansL.nil [] (by simp))
    simpa using hs
  exact claim_C7_ws_transparency.1 ['+', ' '] [' ', '+'] [Token.PLUS] h1 h2

/-- C8: Purity/determinism.  Two scanners constructed over the same input
and drained (with any sufficient number of pulls each) produce identical
outcomes: the token sequence is a deterministic function of the input
text alone — the drain does not depend on anything but the text. -/
theorem claim_C8_purity :
    ∀ (input : List Char) (s1 s2 : Lexer) (f g : Nat),
      s1 = Lexer.new input → s2 = Lexer.new input →
      input.length < f → input.length < g →
      runFuel f s1 = runFuel g s2 := by
  intro input s1 s2 f g h1 h2 hf hg
  subst h1
  subst h2
  exact runFuel_agree (input.length + 1) (Lexer.new input) f g (cursorInv_new input)
    (by rw [new_suffix]; omega) (by rw [new_suffix]; omega) (by rw [new_suffix]; omega)

/-- Witness for C8: draining two fresh scanners over `"+"` with different
pull budgets yields the same outcome. -/
theorem claim_C8_purity_witness :
    runFuel 2 (Lexer.new ['+']) = runFuel 9 (Lexer.new ['+']) :=
  claim_C8_purity ['+'] (Lexer.new ['+']) (Lexer.new ['+']) 2 9 rfl rfl (by decide)
    (by decide)

/-- C9: Single-byte addressing safety.  On ASCII-only input the byte
length used by the source's bounds checks equals the character count, so:
character access at any in-(byte)-bounds index succeeds; every character
boundary's byte offset equals its character index; the byte-checked
accessor (`peak_char_bytes`, the source's mixed addressing) never panics
and agrees with the character-count model's `peak_char`; and any
byte-offset slice of the UTF-8 buffer is exactly the UTF-8 encoding of
the corresponding character slice (so `input[start..=position]` lands on
character boundaries and addresses the same characters). -/
theorem claim_C9_single_byte_addressing :
    ∀ s : List Char, AsciiInput s →
      utf8Len s = s.length ∧
      (∀ i : Nat, i < utf8Len s → (s.get? i).isSome = true) ∧
      (∀ i : Nat, utf8Len (s.take i) = min i s.length) ∧
      (∀ l : Lexer, l.input = s → peak_char_bytes l = some (peak_char l)) ∧
      (∀ a n : Nat, ((utf8Bytes s).drop a).take n
        = ((s.drop a).take n).map Char.toNat) := by
  intro s h
  have hlen : utf8Len s = s.length := ascii_utf8Len h
  refine ⟨hlen, ?_, ?_, ?_, ?_⟩
  · intro i hi
    rw [hlen] at hi
    rw [List.get?_eq_getElem?, List.getElem?_eq_getElem hi]
    rfl
  · intro i
    have htake : AsciiInput (s.take i) := fun c hc => h c (List.take_subset i s hc)
    rw [ascii_utf8Len htake, List.length_take]
  · intro l hin
    subst hin
    unfold peak_char_bytes peak_char
    rw [hlen]
    split
    · rfl
    · rename_i hlt
      push_neg at hlt
      rw [List.get?_eq_getElem?, List.getElem?_eq_getElem hlt,
        List.getD_eq_getElem l.input '\x00' hlt]
  · intro a n
    rw [ascii_utf8Bytes h, ← List.map_drop, ← List.map_take]

/-- Witness for C9 at a concrete ASCII input: its byte length equals its
character count. -/
theorem claim_C9_single_byte_addressing_witness :
    utf8Len ['a', '!'] = (['a', '!'] : List Char).length :=
  (claim_C9_single_byte_addressing ['a', '!'] (by decide)).1

/-- C10: Strict progress.  Every successful `next_token` call strictly
increases `read_position` (the final `read_char` always advances, the EOF
arm included); hence the scan of any input terminates — the drain with
`length + 1` pulls never runs out of fuel — and the produced visible
token sequence has length at most `length + 1`. -/
theorem claim_C10_strict_progress :
    (∀ (l : Lexer) (t : Token) (l2 : Lexer), next_token l = some (t, l2) →
      l.read_position < l2.read_position) ∧
    (∀ input : List Char, (Lexer.tokens input).isMore = false) ∧
    (∀ (input : List Char) (ts : List Token), Lexer.tokens input = Run.done ts →
      ts.length ≤ input.length + 1) :=
  ⟨next_token_rp_lt, tokens_complete,
    fun input ts h => runFuel_len_bound (input.length + 1) (Lexer.new input) ts h⟩

/-- Witness for C10 at a concrete call: one `next_token` over `"+"`
advances `read_position` strictly. -/
theorem claim_C10_strict_progress_witness :
    (Lexer.new ['+']).read_position <
      ({ input := ['+'], position := 1, read_position := 2, ch := '\x00' } :
        Lexer).read_position :=
  claim_C10_strict_progress.1 (Lexer.new ['+']) Token.PLUS
    { input := ['+'], position := 1, read_position := 2, ch := '\x00' } (by decide)
